/-
Verification of the skee_gap resume/job skill-matching pipeline.

The repository's module `extract_skills.py` contains two complete definitions
of each of `load_skills`, `clean_text`, `extract_skills`, `get_embeddings` and
`process_resume_and_job`: a defensive version (lines 1-188, with caching,
exception handling and sorted output) followed by an older script (lines
190-304) appended after it.  Python binds a module-level name to the *last*
definition, so the second (older) definitions are the effective ones.  Here
the effective definitions carry the source names (`clean_text`,
`load_skills`, `extract_skills`, `get_embeddings`); the shadowed first
definitions, where they differ, are embedded under a `First` suffix.

Modelling conventions:
* Python `re` substitution is embedded by a small backtracking matcher over
  sequences of character-class items, which is exactly the shape of every
  pattern used by `clean_text` (each quantifier in those patterns applies to
  a single character class).  Matching order mirrors CPython `re`: leftmost
  position first, alternatives in order, greedy quantifiers longest-first
  with backtracking; `re.sub` replaces each non-overlapping match and
  continues after it.
* Character classes (`\s`, `\S`, `\d`, `lower()`) are modelled on ASCII; the
  repository's data is ASCII text.  `Char.toLower` matches Python `lower()`
  on ASCII.
* Python floats are idealized as rationals (`ℚ`); `round(x, 2)` is modelled
  as exact round-half-to-even to two decimals.
* External capabilities (pandas CSV reading, the spaCy tokenizer/chunker,
  the sentence-embedding model, the on-disk cache) are parameters of the
  embedded functions; code raising a Python exception is modelled with
  `Except`.
-/
import Mathlib

namespace SkeeGap

/-! ## Python `re` machinery

A pattern is a list of alternative branches (tried in order); a branch is a
list of items; an item is a character class with a quantifier.  This is the
exact shape of the five regexes used by `clean_text`:
`\S+@\S+`, `http\S+|www.\S+`, `\+?\d[\d\s\-]{7,}\d`, `[^a-z0-9\s]`, `\s+`. -/

/-- Quantifier on a character class, as used by the `clean_text` regexes. -/
inductive Quant where
  | one : Quant
  | opt : Quant
  | plus : Quant
  | atLeast : Nat → Quant

/-- One regex item: a character class with a quantifier. -/
structure Item where
  cls : Char → Bool
  q : Quant

/-- Try `f k`, `f (k-1)`, ..., `f lo` in order, returning the first success.
This realizes greedy (longest-first) backtracking for a quantified class. -/
def tryDown (f : Nat → Option (List Char)) (lo : Nat) : Nat → Option (List Char)
  | 0 => if lo = 0 then f 0 else none
  | k + 1 => if k + 1 < lo then none else (f (k + 1)) <|> tryDown f lo k

/-- Consume exactly one character of class `p`, then continue with `k`. -/
def matchOneC (p : Char → Bool) (k : List Char → Option (List Char)) :
    List Char → Option (List Char)
  | [] => none
  | c :: s' => if p c then k s' else none

/-- Backtracking match of a branch (list of items) against the beginning of
`s`; returns the remainder of `s` after the first (preferred) match, mirroring
CPython's ordering: greedy quantifiers consume as much as possible and
backtrack, `?` prefers presence.  Each quantifier ranges over a single
character class, so the candidate lengths are exactly `0/1` or a sub-run of
`takeWhile`. -/
def matchItems : List Item → List Char → Option (List Char)
  | [], s => some s
  | it :: rest, s =>
    match it.q with
    | .one => matchOneC it.cls (matchItems rest) s
    | .opt => matchOneC it.cls (matchItems rest) s <|> matchItems rest s
    | .plus => tryDown (fun k => matchItems rest (s.drop k)) 1 (s.takeWhile it.cls).length
    | .atLeast n => tryDown (fun k => matchItems rest (s.drop k)) n (s.takeWhile it.cls).length

/-- Try the branches of a pattern in order at the current position. -/
def matchAlt : List (List Item) → List Char → Option (List Char)
  | [], _ => none
  | b :: bs, s => matchItems b s <|> matchAlt bs s

/-- Fuelled worker for `subAll`.  At each position, if the pattern matches,
emit the replacement and continue after the match; otherwise keep the
character and advance by one — exactly `re.sub`'s scan.  The length guard
only serves fuel accounting: none of the `clean_text` patterns can match the
empty string, so a successful match always consumes at least one character. -/
def subAllF (pat : List (List Item)) (repl : List Char) : Nat → List Char → List Char
  | _, [] => []
  | 0, s => s
  | fuel + 1, c :: rest =>
    match matchAlt pat (c :: rest) with
    | some r =>
      if r.length ≤ rest.length then repl ++ subAllF pat repl fuel r
      else c :: subAllF pat repl fuel rest
    | none => c :: subAllF pat repl fuel rest

/-- `re.sub(pat, repl, s)` for the patterns above. -/
def subAll (pat : List (List Item)) (repl : List Char) (s : List Char) : List Char :=
  subAllF pat repl s.length s

/-! ## The `clean_text` character classes and patterns -/

/-- Python `\s` on ASCII: space, tab, newline, carriage return, vertical tab,
form feed. -/
def pySp (c : Char) : Bool :=
  c == ' ' || c == '\t' || c == '\n' || c == '\r' || c == '\x0B' || c == '\x0C'

/-- Python `\S`. -/
def nonSp (c : Char) : Bool := !(pySp c)

/-- A literal character, as a one-element class. -/
def litC (a : Char) : Item := ⟨fun c => c == a, .one⟩

/-- `\S+@\S+` (e-mail removal). -/
def emailPat : List (List Item) :=
  [[⟨nonSp, .plus⟩, litC '@', ⟨nonSp, .plus⟩]]

/-- `http\S+|www.\S+` (URL removal), as written in the effective (second)
`clean_text` at line 228: the `.` after `www` is an unescaped regex dot and
matches any character except newline.  (The shadowed first definition at
line 84 escapes it as `www\.\S+`; the difference is immaterial to the claims
settled here — the counterexamples below avoid the dot.) -/
def urlPat : List (List Item) :=
  [[litC 'h', litC 't', litC 't', litC 'p', ⟨nonSp, .plus⟩],
   [litC 'w', litC 'w', litC 'w', ⟨fun c => c != '\n', .one⟩, ⟨nonSp, .plus⟩]]

/-- `\+?\d[\d\s\-]{7,}\d` (phone-number removal). -/
def phonePat : List (List Item) :=
  [[⟨fun c => c == '+', .opt⟩, ⟨Char.isDigit, .one⟩,
    ⟨fun c => c.isDigit || pySp c || c == '-', .atLeast 7⟩, ⟨Char.isDigit, .one⟩]]

/-- `[^a-z0-9\s]` (special-character removal). -/
def specialCls (c : Char) : Bool := !(c.isLower || c.isDigit || pySp c)

/-- The special-character pattern as a one-item branch. -/
def specialPat : List (List Item) := [[⟨specialCls, .one⟩]]

/-- `\s+` (whitespace collapsing). -/
def wsPat : List (List Item) := [[⟨pySp, .plus⟩]]

/-- The replacement string `" "` used by every substitution in `clean_text`. -/
def spRepl : List Char := [' ']

/-- Python `str.strip()` on ASCII whitespace. -/
def pyStripL (l : List Char) : List Char :=
  ((l.dropWhile pySp).reverse.dropWhile pySp).reverse

/-- `clean_text` (effective definition, `extract_skills.py` lines 224-237;
the shadowed first definition at lines 79-88 is identical except for the
escaped dot in the URL regex): lowercase; remove e-mails, URLs, phone
numbers and special characters; collapse whitespace; trim. -/
def clean_text (l : List Char) : List Char :=
  if l.isEmpty then [] else
  pyStripL (subAll wsPat spRepl
    (subAll specialPat spRepl
      (subAll phonePat spRepl
        (subAll urlPat spRepl
          (subAll emailPat spRepl (l.map Char.toLower))))))

/-- `clean_text` on `String`. -/
def cleanTextStr (s : String) : String := ⟨clean_text s.data⟩

/-! ## Python string ordering and `sorted`

Python compares strings lexicographically by code points; `sorted(xs)` is
the corresponding sort.  The order is stated as `¬ b.data < a.data` (the
lexicographic list order on the character data, which the kernel can
evaluate); it coincides with Mathlib's linear order on `String`
(`strLe_iff` below). -/

/-- Python's `<=` on strings: lexicographic by code points. -/
def strLe (a b : String) : Prop := ¬ b.data < a.data

instance : DecidableRel strLe := fun _ _ => instDecidableNot

instance : IsTotal String strLe :=
  ⟨fun a b => by
    have h : ∀ x y : String, strLe x y ↔ x ≤ y := fun _ _ =>
      (not_congr String.lt_iff_toList_lt).symm
    simpa [h] using le_total a b⟩

instance : IsTrans String strLe :=
  ⟨fun a b c hab hbc => by
    have h : ∀ x y : String, strLe x y ↔ x ≤ y := fun _ _ =>
      (not_congr String.lt_iff_toList_lt).symm
    rw [h] at *
    exact le_trans hab hbc⟩

instance : IsAntisymm String strLe :=
  ⟨fun a b hab hba => by
    have h : ∀ x y : String, strLe x y ↔ x ≤ y := fun _ _ =>
      (not_congr String.lt_iff_toList_lt).symm
    rw [h] at *
    exact le_antisymm hab hba⟩

/-- Python `sorted(list(s))` for a set `s` of strings: the sorted list of its
elements.  (Defined by insertion sort on any representative list; the result
is representative-independent because sorting a permutation of a list yields
the same sorted list.  Agrees with Mathlib's `Finset.sort`, see
`pySorted_eq_sort`.) -/
def pySorted (s : Finset String) : List String :=
  Quot.liftOn s.val (fun l => List.insertionSort strLe l)
    (fun _ _ h => List.eq_of_perm_of_sorted
      ((List.perm_insertionSort _ _).trans (Quotient.exact (Quot.sound h) |>.trans
        (List.perm_insertionSort _ _).symm))
      (List.sorted_insertionSort _ _) (List.sorted_insertionSort _ _))

/-! ## Scorer (`scores.py`)

`compute_skill_match` builds each side's skill set as the Python `set` of
`dict_skills + fuzzy_skills`, takes intersection and difference, and returns
`round(len(overlap)/len(job_set), 2)` together with the sorted overlap and
missing lists.  Python sets are modelled as `Finset String`; floats are
idealized as rationals. -/

/-- The dict of skills produced by `extract_skills` and consumed by
`compute_skill_match`: `{"dict_skills": [...], "fuzzy_skills": [...]}`. -/
structure SkillsDict where
  dict_skills : List String
  fuzzy_skills : List String
deriving DecidableEq

/-- The result dict of `compute_skill_match`. -/
structure MatchResult where
  skill_score : ℚ
  overlap : List String
  missing : List String
deriving DecidableEq

/-- CPython `round` to an integer: round half to even.  The fractional part
`q - ⌊q⌋` is compared with `1/2` in integer arithmetic: with `f = ⌊q⌋`,
`2 * (q.num - f * q.den)` compared with `q.den` is `2 * q.den * (q - f)`
compared with `2 * q.den * (1/2)`.  (Written this way because the kernel
evaluates integer arithmetic but not the `Rat` field operations; the lemma
`pyRoundInt_spec` below restates it with rational arithmetic.) -/
def pyRoundInt (q : ℚ) : ℤ :=
  let f := ⌊q⌋
  let r2 := 2 * (q.num - f * q.den)
  if r2 < q.den then f
  else if (q.den : ℤ) < r2 then f + 1
  else if f % 2 = 0 then f else f + 1

/-- Python `round(q, 2)` (floats idealized as rationals):
`pyRoundInt (q * 100) / 100`, with the scaling by 100 performed on the
numerator (`mkRat (q.num * 100) q.den = q * 100`; see `round2_spec`). -/
def round2 (q : ℚ) : ℚ := mkRat (pyRoundInt (mkRat (q.num * 100) q.den)) 100

/-- `compute_skill_match` (`scores.py` lines 23-45).  The score
`len(overlap) / len(job_set)` is the exact rational `mkRat overlap.card
job_set.card` (see `compute_skill_match_spec` for the division form). -/
def compute_skill_match (resume_skills job_skills : SkillsDict) : MatchResult :=
  let resume_set : Finset String :=
    (resume_skills.dict_skills ++ resume_skills.fuzzy_skills).toFinset
  let job_set : Finset String :=
    (job_skills.dict_skills ++ job_skills.fuzzy_skills).toFinset
  let overlap := resume_set ∩ job_set
  let missing := job_set \ resume_set
  let skill_score : ℚ :=
    if job_set.card = 0 then 0 else mkRat overlap.card job_set.card
  { skill_score := round2 skill_score
    overlap := pySorted overlap
    missing := pySorted missing }

/-! ## Skill dictionary loader (`load_skills`)

`pd.read_csv(csv_path, header=None, dtype=str)` followed by
`df.values.flatten()` yields the cells of the file in row-major order; string
cells are split on `","`, stripped, lowercased and filtered.  The tabular
source is modelled as the flattened cell list (`none` = a NaN cell), and the
read as an `Option` of it (`none` = the read raised).  The spaCy `STOP_WORDS`
list is an external constant and is a parameter `sw` here. -/

/-- Exceptions raised by the modelled Python code. -/
inductive PyError where
  | readError : PyError
  | typeError : PyError
deriving DecidableEq

/-- Python `str.strip()` on a `String`. -/
def pyStripStr (s : String) : String := ⟨pyStripL s.data⟩

/-- Python `str.lower()` on a `String` (ASCII). -/
def pyLowerStr (s : String) : String := ⟨s.data.map Char.toLower⟩

/-- Python `str.split(sep)` for a one-character separator: split at every
occurrence, keeping empty pieces (`"".split(",") == [""]`). -/
def pySplitOn (sep : Char) : List Char → List (List Char)
  | [] => [[]]
  | c :: rest =>
    if c = sep then [] :: pySplitOn sep rest
    else
      match pySplitOn sep rest with
      | [] => [[c]]
      | t :: ts => (c :: t) :: ts

/-- The skills contributed by one string cell: split on `","`, strip and
lowercase each piece, keep it when nonempty, longer than 2 characters and
not a stopword (the body of the loop shared by both `load_skills`
definitions). -/
def cellSkills (sw : List String) (cell : String) : List String :=
  ((pySplitOn ',' cell.data).map (fun p => pyLowerStr (pyStripStr ⟨p⟩))).filter
    (fun c => c ≠ "" && c.length > 2 && !(sw.contains c))

/-- The Python set `skills_set` accumulated over all string cells. -/
def skillsFromCells (sw : List String) (cells : List (Option String)) : Finset String :=
  ((cells.filterMap id).map (cellSkills sw)).flatten.toFinset

/-- `load_skills` (effective definition, `extract_skills.py` lines 206-221):
no exception handling — a failed read propagates the pandas exception — and
the function returns `list(skills_set)`, i.e. the set in unspecified
iteration order, which we model as the `Finset` itself. -/
def load_skills (sw : List String) (read : Option (List (Option String))) :
    Except PyError (Finset String) :=
  match read with
  | none => .error .readError
  | some cells => .ok (skillsFromCells sw cells)

/-- `load_skills` (shadowed first definition, lines 51-76): returns `[]` when
the read fails, and `sorted(skills_set)` otherwise. -/
def load_skillsFirst (sw : List String) (read : Option (List (Option String))) :
    List String :=
  match read with
  | none => []
  | some cells => pySorted (skillsFromCells sw cells)

/-! ## Fuzzy matching (`rapidfuzz`) and `extract_skills`

`fuzz.token_sort_ratio(a, b)` splits each string on whitespace, sorts the
tokens, joins them with single spaces, and returns the normalized InDel
similarity `100 * (1 - dist/(len a + len b))`, where the InDel distance is
`len a + len b - 2 * lcs a b`.  `process.extractOne(q, choices, scorer)`
returns `(choice, score, index)` for the first choice attaining the maximal
score, or `None` when `choices` is empty. -/

/-- Length of the longest common subsequence, by the standard row-wise
dynamic program (`prev` is the tail of the previous row, `diag` and `left`
the two already-computed neighbours). -/
def lcsRowGo (a : Char) : List Char → List Nat → Nat → Nat → List Nat
  | [], _, _, _ => []
  | b :: bs, prev, diag, left =>
    let up := prev.headD 0
    let cur := if a = b then diag + 1 else max left up
    cur :: lcsRowGo a bs prev.tail up cur

/-- All rows of the LCS dynamic program folded over `as`. -/
def lcsFold (bs : List Char) (as : List Char) : List Nat :=
  as.foldl (fun row a => 0 :: lcsRowGo a bs row.tail (row.headD 0) 0)
    (List.replicate (bs.length + 1) 0)

/-- `lcs as bs` = length of the longest common subsequence. -/
def lcs (as bs : List Char) : Nat := (lcsFold bs as).getLastD 0

/-- `fuzz.ratio`: normalized InDel similarity on a 0-100 scale, as a
rational: `100 * (1 - indel/(la+lb))` with `indel = la + lb - 2*lcs`, i.e.
`100 * 2 * lcs / (la + lb)`, written as `mkRat` (the kernel evaluates
`mkRat` but not the `Rat` field operations; see `indelSim_spec`). -/
def indelSim (a b : List Char) : ℚ :=
  if a.length + b.length = 0 then 100
  else mkRat (100 * (2 * lcs a b)) (a.length + b.length)

/-- Python `str.split()`: split on whitespace runs, dropping empty pieces. -/
def pySplitWSGo : List Char → List Char → List (List Char)
  | [], acc => if acc.isEmpty then [] else [acc.reverse]
  | c :: rest, acc =>
    if pySp c then
      (if acc.isEmpty then pySplitWSGo rest [] else acc.reverse :: pySplitWSGo rest [])
    else pySplitWSGo rest (c :: acc)

/-- Python `s.split()` as a list of `String` tokens. -/
def pySplitWS (s : String) : List String :=
  (pySplitWSGo s.data []).map fun l => ⟨l⟩

/-- The token-sort preprocessing of `fuzz.token_sort_ratio`:
`" ".join(sorted(s.split()))`. -/
def tokenSortPrep (s : String) : String :=
  String.intercalate " " (List.insertionSort strLe (pySplitWS s))

/-- `fuzz.token_sort_ratio` on a 0-100 rational scale. -/
def tokenSortSim (a b : String) : ℚ :=
  indelSim (tokenSortPrep a).data (tokenSortPrep b).data

/-- The scan of `process.extractOne`: keep the earliest choice whose score is
strictly greater than the best so far. -/
def extractOneGo (q : String) : List String → (String × ℚ × Nat) → Nat → (String × ℚ × Nat)
  | [], best, _ => best
  | c :: cs, best, i =>
    extractOneGo q cs (if best.2.1 < tokenSortSim q c then (c, tokenSortSim q c, i) else best) (i + 1)

/-- `process.extractOne(q, choices, scorer=fuzz.token_sort_ratio)`:
`none` when `choices` is empty, otherwise the first choice attaining the
maximal score, with its score and index. -/
def extractOne (q : String) : List String → Option (String × ℚ × Nat)
  | [] => none
  | c :: cs => some (extractOneGo q cs (c, tokenSortSim q c, 0) 1)

/-- A spaCy token: its text and its `is_alpha` flag. -/
structure PToken where
  text : String
  alpha : Bool

/-- The spaCy pipeline (`nlp`), an external capability: token list and
noun-chunk texts of a document. -/
structure Tokenizer where
  tokens : String → List PToken
  chunks : String → List String

/-- The candidate set of `extract_skills` (effective definition, lines
245-248): lowercased alphabetic tokens not in `STOP_WORDS`, together with
stripped, lowercased noun chunks of stripped length 2-40.  (The membership
test `t.text not in STOP_WORDS` runs on the token text before lowering; the
document is already lowercased by `clean_text`.) -/
def candidateSet (sw : List String) (tk : Tokenizer) (cleaned : String) : Finset String :=
  (((tk.tokens cleaned).filter (fun t => t.alpha && !(sw.contains t.text))).map
      (fun t => pyLowerStr t.text)).toFinset ∪
  (((tk.chunks cleaned).filter
      (fun ch => 2 ≤ (pyStripStr ch).length && (pyStripStr ch).length ≤ 40)).map
      (fun ch => pyLowerStr (pyStripStr ch))).toFinset

/-- The default fuzzy threshold of the effective `extract_skills`
(line 240): 80.  (The shadowed first definition at line 91 defaults to 88.) -/
def defaultFuzzyThreshold : ℚ := 80

/-- The body of the candidate loop of the effective `extract_skills` (lines
253-267): an exact dictionary hit goes to `dict_matches`; otherwise
`match, score, _ = process.extractOne(cand, skills_set, ...)` — which raises
`TypeError` when `extractOne` returns `None`, i.e. when `skills_set` is
empty — and the matched dictionary entry goes to `fuzzy_matches` when the
score reaches the threshold. -/
def extractStep (skills_set : List String) (thr : ℚ) (acc : Finset String × Finset String)
    (cand : String) : Except PyError (Finset String × Finset String) :=
  if skills_set.contains cand then .ok (insert cand acc.1, acc.2)
  else
    match extractOne cand skills_set with
    | none => .error .typeError
    | some (m, score, _) => if thr ≤ score then .ok (acc.1, insert m acc.2) else .ok acc

/-- `extract_skills` (effective definition, lines 240-268).  The Python `for`
loop iterates the candidate set in unspecified order; every observable of the
loop (the two result sets, and whether it raises) is order-independent, so
the model iterates the candidates in sorted order. -/
def extract_skills (sw : List String) (tk : Tokenizer) (skills_set : List String)
    (text : String) (fuzzy_threshold : ℚ) : Except PyError SkillsDict := do
  let cleaned := cleanTextStr text
  let cands := pySorted (candidateSet sw tk cleaned)
  let (d, f) ← cands.foldlM (extractStep skills_set fuzzy_threshold) (∅, ∅)
  return ⟨pySorted d, pySorted f⟩

/-! ## Embedding provider (`get_embeddings`)

The cache directory, the SHA-256 hash and the embedding model are external
capabilities, bundled as an environment: `hash` maps the cleaned text to the
cache key, `read` is the outcome of the cache lookup at a key, `writeOk`
tells whether a cache write would succeed, and `model` is the
SentenceTransformer encoding.  A modelled call returns the produced vector
together with the list of cache writes performed. -/

/-- Outcome of a cache read: a hit, no entry, or a raised exception
(corrupt file). -/
inductive CacheRead (V : Type) where
  | hit : V → CacheRead V
  | absent : CacheRead V
  | failed : CacheRead V

/-- The external environment of `get_embeddings`. -/
structure EmbedEnv (V : Type) where
  hash : String → String
  read : String → CacheRead V
  writeOk : Bool
  model : String → V

/-- `get_embeddings` (effective definition, `extract_skills.py` lines
271-272): `return embedder.encode([clean_text(text)])[0]` — no cache read,
no cache write. -/
def get_embeddings {V : Type} (env : EmbedEnv V) (text : String) : V × List (String × V) :=
  (env.model (cleanTextStr text), [])

/-- `get_embeddings` (shadowed first definition, lines 127-163): hash the
cleaned text, return a cache hit if the read succeeds, otherwise (absent or
failed read) compute via the model, attempt a best-effort write, and return
the computed vector. -/
def get_embeddingsFirst {V : Type} (env : EmbedEnv V) (text : String) : V × List (String × V) :=
  let cleaned := cleanTextStr text
  let key := env.hash cleaned
  match env.read key with
  | .hit v => (v, [])
  | _ =>
    let e := env.model cleaned
    (e, if env.writeOk then [(key, e)] else [])

/-! ## Small executable string helpers used in claim statements -/

/-- Is `p` a prefix of `l`? -/
def startsWithL : List Char → List Char → Bool
  | [], _ => true
  | _ :: _, [] => false
  | p :: ps, c :: cs => p == c && startsWithL ps cs

/-- Does `pat` occur as a contiguous factor (substring) of `l`? -/
def hasFactor (pat : List Char) : List Char → Bool
  | [] => startsWithL pat []
  | c :: rest => startsWithL pat (c :: rest) || hasFactor pat rest

/-! # Theorems -/

/-! ## Generic bridges for `Char` arithmetic -/

theorem uint32_le_iff_toNat_le {a b : UInt32} : a ≤ b ↔ a.toNat ≤ b.toNat := by
  rw [UInt32.le_def, BitVec.le_def]
  exact Iff.rfl

theorem char_le_iff_toNat_le {a b : Char} : a ≤ b ↔ a.toNat ≤ b.toNat := by
  rw [Char.le_def, uint32_le_iff_toNat_le]
  exact Iff.rfl

theorem char_toNat_ofNat_valid {n : Nat} (h : n < 0xd800) : (Char.ofNat n).toNat = n := by
  rw [Char.ofNat, dif_pos (Or.inl h)]
  rfl

theorem char_toLower_eq_ite (c : Char) :
    Char.toLower c = if 65 ≤ c.toNat ∧ c.toNat ≤ 90 then Char.ofNat (c.toNat + 32) else c := by
  unfold Char.toLower
  rfl

theorem char_toLower_toNat (c : Char) :
    (Char.toLower c).toNat =
      if 65 ≤ c.toNat ∧ c.toNat ≤ 90 then c.toNat + 32 else c.toNat := by
  rw [char_toLower_eq_ite]
  split
  · exact char_toNat_ofNat_valid (by omega)
  · rfl

theorem char_toLower_eq_self {c : Char} (h : ¬(65 ≤ c.toNat ∧ c.toNat ≤ 90)) :
    Char.toLower c = c := by
  rw [char_toLower_eq_ite]
  exact if_neg h

theorem char_isLower_iff {c : Char} : c.isLower = true ↔ 97 ≤ c.toNat ∧ c.toNat ≤ 122 := by
  simp only [Char.isLower, Bool.and_eq_true, decide_eq_true_eq, ge_iff_le]
  constructor
  · rintro ⟨h1, h2⟩
    exact ⟨uint32_le_iff_toNat_le.mp h1, uint32_le_iff_toNat_le.mp h2⟩
  · rintro ⟨h1, h2⟩
    exact ⟨uint32_le_iff_toNat_le.mpr h1, uint32_le_iff_toNat_le.mpr h2⟩

theorem char_isDigit_iff {c : Char} : c.isDigit = true ↔ 48 ≤ c.toNat ∧ c.toNat ≤ 57 := by
  simp only [Char.isDigit, Bool.and_eq_true, decide_eq_true_eq, ge_iff_le]
  constructor
  · rintro ⟨h1, h2⟩
    exact ⟨uint32_le_iff_toNat_le.mp h1, uint32_le_iff_toNat_le.mp h2⟩
  · rintro ⟨h1, h2⟩
    exact ⟨uint32_le_iff_toNat_le.mpr h1, uint32_le_iff_toNat_le.mpr h2⟩

theorem char_isUpper_iff {c : Char} : c.isUpper = true ↔ 65 ≤ c.toNat ∧ c.toNat ≤ 90 := by
  simp only [Char.isUpper, Bool.and_eq_true, decide_eq_true_eq, ge_iff_le]
  constructor
  · rintro ⟨h1, h2⟩
    exact ⟨uint32_le_iff_toNat_le.mp h1, uint32_le_iff_toNat_le.mp h2⟩
  · rintro ⟨h1, h2⟩
    exact ⟨uint32_le_iff_toNat_le.mpr h1, uint32_le_iff_toNat_le.mpr h2⟩

/-- `lower()` never produces an upper-case ASCII letter. -/
theorem char_toLower_not_upper (c : Char) : (Char.toLower c).isUpper = false := by
  cases hb : (Char.toLower c).isUpper
  · rfl
  · exfalso
    rw [char_isUpper_iff, char_toLower_toNat] at hb
    split at hb <;> omega

/-! ## `strLe` and `pySorted` agree with Mathlib's order and sort -/

theorem strLe_iff {a b : String} : strLe a b ↔ a ≤ b :=
  (not_congr String.lt_iff_toList_lt).symm

theorem pySorted_eq_sort (s : Finset String) : pySorted s = s.sort (· ≤ ·) := by
  rcases s with ⟨m, hm⟩
  revert hm
  induction m using Quotient.inductionOn with
  | h l =>
    intro hm
    refine List.eq_of_perm_of_sorted ?_ ?_ (Finset.sort_sorted _ _)
    · exact (List.perm_insertionSort _ _).trans
        (Quotient.exact (Multiset.sort_eq _ _)).symm
    · exact (List.sorted_insertionSort _ _).imp fun h => strLe_iff.mp h

theorem pySorted_sorted (s : Finset String) : List.Sorted (· ≤ ·) (pySorted s) := by
  rw [pySorted_eq_sort]
  exact Finset.sort_sorted _ s

theorem pySorted_nodup (s : Finset String) : (pySorted s).Nodup := by
  rw [pySorted_eq_sort]
  exact Finset.sort_nodup _ s

theorem mem_pySorted {s : Finset String} {a : String} : a ∈ pySorted s ↔ a ∈ s := by
  rw [pySorted_eq_sort]
  exact Finset.mem_sort _

/-! ## Rational bridges: the `mkRat`-style definitions in division form -/

theorem mkRat_eq_div' (n : ℤ) (d : ℕ) : mkRat n d = (n : ℚ) / (d : ℚ) := by
  rw [Rat.mkRat_eq_divInt, Rat.divInt_eq_div]
  norm_num

/-- `pyRoundInt` is round-half-to-even on the fractional part. -/
theorem pyRoundInt_spec (q : ℚ) :
    pyRoundInt q =
      if q - ⌊q⌋ < 1/2 then ⌊q⌋
      else if 1/2 < q - ⌊q⌋ then ⌊q⌋ + 1
      else if ⌊q⌋ % 2 = 0 then ⌊q⌋ else ⌊q⌋ + 1 := by
  have hd : (0:ℚ) < (q.den : ℚ) := by exact_mod_cast q.den_pos
  have hqd : q * (q.den : ℚ) = (q.num : ℚ) := Rat.mul_den_eq_num q
  have hcast : ((2 * (q.num - ⌊q⌋ * q.den) : ℤ) : ℚ) = 2 * q.den * (q - ⌊q⌋) := by
    push_cast
    linear_combination (-2 : ℚ) * hqd
  have h1 : (2 * (q.num - ⌊q⌋ * q.den) < (q.den : ℤ)) ↔ q - ⌊q⌋ < 1/2 := by
    constructor
    · intro h
      have hq : ((2 * (q.num - ⌊q⌋ * q.den) : ℤ) : ℚ) < ((q.den : ℤ) : ℚ) := by
        exact_mod_cast h
      rw [hcast] at hq
      push_cast at hq
      nlinarith
    · intro h
      have hq : ((2 * (q.num - ⌊q⌋ * q.den) : ℤ) : ℚ) < ((q.den : ℤ) : ℚ) := by
        rw [hcast]
        push_cast
        nlinarith
      exact_mod_cast hq
  have h2 : ((q.den : ℤ) < 2 * (q.num - ⌊q⌋ * q.den)) ↔ 1/2 < q - ⌊q⌋ := by
    constructor
    · intro h
      have hq : (((q.den : ℤ)) : ℚ) < ((2 * (q.num - ⌊q⌋ * q.den) : ℤ) : ℚ) := by
        exact_mod_cast h
      rw [hcast] at hq
      push_cast at hq
      nlinarith
    · intro h
      have hq : (((q.den : ℤ)) : ℚ) < ((2 * (q.num - ⌊q⌋ * q.den) : ℤ) : ℚ) := by
        rw [hcast]
        push_cast
        nlinarith
      exact_mod_cast hq
  simp only [pyRoundInt]
  by_cases hlt : q - ⌊q⌋ < 1/2
  · rw [if_pos (h1.mpr hlt), if_pos hlt]
  · rw [if_neg (fun hc => hlt (h1.mp hc)), if_neg hlt]
    by_cases hgt : 1/2 < q - ⌊q⌋
    · rw [if_pos (h2.mpr hgt), if_pos hgt]
    · rw [if_neg (fun hc => hgt (h2.mp hc)), if_neg hgt]

/-- `round2` is `round(q * 100) / 100`. -/
theorem round2_spec (q : ℚ) : round2 q = (pyRoundInt (q * 100) : ℚ) / 100 := by
  have hm : mkRat (q.num * 100) q.den = q * 100 := by
    rw [mkRat_eq_div']
    push_cast
    conv_rhs => rw [← Rat.num_div_den q]
    ring
  rw [round2, hm, mkRat_eq_div']
  norm_num

/-- `indelSim` is the rapidfuzz normalized InDel similarity
`100 * 2 * lcs / (la + lb)`. -/
theorem indelSim_spec (a b : List Char) :
    indelSim a b =
      if a.length + b.length = 0 then 100
      else 100 * (2 * lcs a b : ℚ) / (a.length + b.length : ℚ) := by
  rw [indelSim]
  split
  · rfl
  · rw [mkRat_eq_div']
    push_cast
    ring

/-! ## C1 and C10: `compute_skill_match` -/

/-- C1, counterexample: the claim says `skill_score` equals
`|overlap| / |job set|`, but `compute_skill_match` rounds the ratio to two
decimals (`scores.py` line 36), so for a resume `{python}` against a job
`{python, sql, tableau}` the exact ratio `1/3` is reported as `0.33`. -/
theorem compute_skill_match_score_not_exact_ratio :
    (compute_skill_match ⟨["python"], []⟩ ⟨["python", "sql", "tableau"], []⟩).skill_score
        ≠ 1 / 3 ∧
    (compute_skill_match ⟨["python"], []⟩ ⟨["python", "sql", "tableau"], []⟩).skill_score
        = 33 / 100 := by
  have h : (compute_skill_match ⟨["python"], []⟩
      ⟨["python", "sql", "tableau"], []⟩).skill_score = mkRat 33 100 := by decide
  rw [h, mkRat_eq_div']
  constructor
  · norm_num
  · norm_num

/-- C1 (amended): `compute_skill_match` forms each side's skill set as the
union of its `dict_skills` and `fuzzy_skills`, and returns `overlap` equal to
the sorted intersection, `missing` equal to the sorted difference job minus
resume, and `skill_score` equal to `|overlap| / |job set|` (0.0 for an empty
job set) **rounded to two decimal places**. -/
theorem compute_skill_match_spec (r j : SkillsDict) :
    (compute_skill_match r j).overlap =
      ((r.dict_skills.toFinset ∪ r.fuzzy_skills.toFinset) ∩
        (j.dict_skills.toFinset ∪ j.fuzzy_skills.toFinset)).sort (· ≤ ·) ∧
    (compute_skill_match r j).missing =
      ((j.dict_skills.toFinset ∪ j.fuzzy_skills.toFinset) \
        (r.dict_skills.toFinset ∪ r.fuzzy_skills.toFinset)).sort (· ≤ ·) ∧
    (compute_skill_match r j).skill_score =
      round2 (if (j.dict_skills.toFinset ∪ j.fuzzy_skills.toFinset).card = 0 then 0
        else (((r.dict_skills.toFinset ∪ r.fuzzy_skills.toFinset) ∩
            (j.dict_skills.toFinset ∪ j.fuzzy_skills.toFinset)).card : ℚ) /
          ((j.dict_skills.toFinset ∪ j.fuzzy_skills.toFinset).card : ℚ)) := by
  refine ⟨?_, ?_, ?_⟩
  · simp only [compute_skill_match, List.toFinset_append]
    exact pySorted_eq_sort _
  · simp only [compute_skill_match, List.toFinset_append]
    exact pySorted_eq_sort _
  · simp only [compute_skill_match, List.toFinset_append]
    congr 1
    split
    · rfl
    · rw [mkRat_eq_div']
      push_cast
      rfl

/-- C10: the `skill_score` returned by `compute_skill_match` is the exact
ratio `|overlap| / |job set|` rounded to two decimal places (round half to
even, as CPython's `round`), so the returned value can differ from the exact
ratio: `1/3` is reported as `0.33`. -/
theorem compute_skill_match_rounds_to_two_decimals :
    (∀ r j : SkillsDict,
      (compute_skill_match r j).skill_score =
        round2 (if (j.dict_skills ++ j.fuzzy_skills).toFinset.card = 0 then 0
          else (((r.dict_skills ++ r.fuzzy_skills).toFinset ∩
              (j.dict_skills ++ j.fuzzy_skills).toFinset).card : ℚ) /
            ((j.dict_skills ++ j.fuzzy_skills).toFinset.card : ℚ))) ∧
    (compute_skill_match ⟨["python"], []⟩ ⟨["python", "sql", "tableau"], []⟩).skill_score
        = 33 / 100 ∧
    (33 : ℚ) / 100 ≠ 1 / 3 := by
  refine ⟨?_, ?_, by norm_num⟩
  · intro r j
    simp only [compute_skill_match]
    congr 1
    split
    · rfl
    · rw [mkRat_eq_div']
      push_cast
      rfl
  · have h : (compute_skill_match ⟨["python"], []⟩
        ⟨["python", "sql", "tableau"], []⟩).skill_score = mkRat 33 100 := by decide
    rw [h, mkRat_eq_div']
    norm_num

/-! ## C4: `load_skills` on a failed read -/

/-- C4: on a read failure the *effective* `load_skills` (second definition,
lines 206-221, no `try`/`except`) propagates the pandas exception, while the
shadowed first definition (lines 51-76), whose docstring says "Returns an
empty list on failure", returns `[]` as the claim states. -/
theorem load_skills_read_failure :
    (∀ sw, load_skills sw none = Except.error PyError.readError) ∧
    (∀ sw, load_skillsFirst sw none = []) :=
  ⟨fun _ => rfl, fun _ => rfl⟩

/-! ## C3: `get_embeddings` and the cache -/

/-- C3: the *effective* `get_embeddings` (second definition, lines 271-272)
performs no cache interaction at all: it always recomputes via the model and
never persists — a present cache entry (here `2`) is ignored (the model
returns `1`).  The shadowed first definition (lines 127-163) implements the
claimed behaviour: a cache hit is returned as-is; a failed cache read falls
through to recomputation; a failed cache write does not fail the request. -/
theorem get_embeddings_cache_behaviour :
    (∀ (V : Type) (env : EmbedEnv V) (text : String),
      get_embeddings env text = (env.model (cleanTextStr text), [])) ∧
    (get_embeddings (⟨fun _ => "k", fun _ => CacheRead.hit 2, true, fun _ => 1⟩ : EmbedEnv ℚ)
        "hello" = (1, []) ∧
      get_embeddingsFirst (⟨fun _ => "k", fun _ => CacheRead.hit 2, true, fun _ => 1⟩ : EmbedEnv ℚ)
        "hello" = (2, [])) ∧
    (∀ (V : Type) (env : EmbedEnv V) (text : String) (v : V),
      env.read (env.hash (cleanTextStr text)) = CacheRead.hit v →
        get_embeddingsFirst env text = (v, [])) ∧
    (∀ (V : Type) (env : EmbedEnv V) (text : String),
      env.read (env.hash (cleanTextStr text)) = CacheRead.failed →
        (get_embeddingsFirst env text).1 = env.model (cleanTextStr text)) ∧
    (∀ (V : Type) (env : EmbedEnv V) (text : String),
      env.writeOk = false →
        get_embeddingsFirst env text = ((get_embeddingsFirst env text).1, [])) := by
  refine ⟨fun V env text => rfl, ⟨rfl, rfl⟩, ?_, ?_, ?_⟩
  · intro V env text v h
    simp [get_embeddingsFirst, h]
  · intro V env text h
    simp [get_embeddingsFirst, h]
  · intro V env text h
    simp only [get_embeddingsFirst, h]
    cases env.read (env.hash (cleanTextStr text)) <;> simp

/-! ## C5: the skill dictionary loader's output -/

theorem mem_cellSkills {sw : List String} {cell s : String} :
    s ∈ cellSkills sw cell ↔
      (∃ p ∈ pySplitOn ',' cell.data, pyLowerStr (pyStripStr ⟨p⟩) = s) ∧
        s ≠ "" ∧ 2 < s.length ∧ sw.contains s = false := by
  simp only [cellSkills, List.mem_filter, List.mem_map, Bool.and_eq_true,
    decide_eq_true_eq, Bool.not_eq_true', gt_iff_lt]
  tauto

theorem mem_skillsFromCells {sw : List String} {cells : List (Option String)} {s : String} :
    s ∈ skillsFromCells sw cells ↔
      ∃ cell, some cell ∈ cells ∧ s ∈ cellSkills sw cell := by
  simp only [skillsFromCells, List.mem_toFinset, List.mem_flatten, List.mem_map,
    List.mem_filterMap, id]
  constructor
  · rintro ⟨l, ⟨cell, ⟨o, ho, hoc⟩, rfl⟩, hs⟩
    exact ⟨cell, by rwa [hoc] at ho, hs⟩
  · rintro ⟨cell, hc, hs⟩
    exact ⟨cellSkills sw cell, ⟨cell, ⟨some cell, hc, rfl⟩, rfl⟩, hs⟩

/-- C5: the shadowed first `load_skills` (lines 51-76) returns a
deduplicated, alphabetically sorted list of phrases, each nonempty, longer
than 2 characters, not a stopword and free of upper-case ASCII letters; on
the example source cell `"Python, SQL, Tableau"` it returns exactly
`["python", "sql", "tableau"]`, and the skill set built by the effective
(second) definition has the same three elements.  (The effective definition
returns `list(skills_set)`, the set in unspecified iteration order, so the
*sortedness* part of the claim is not guaranteed by the effective code.) -/
theorem load_skills_first_def_props :
    (∀ sw read, List.Sorted (· ≤ ·) (load_skillsFirst sw read) ∧
      (load_skillsFirst sw read).Nodup ∧
      (∀ s ∈ load_skillsFirst sw read,
        s ≠ "" ∧ 2 < s.length ∧ sw.contains s = false ∧
        ∀ c ∈ s.data, c.isUpper = false)) ∧
    load_skillsFirst ["and", "the", "for", "with"] (some [some "Python, SQL, Tableau"]) =
      ["python", "sql", "tableau"] ∧
    skillsFromCells ["and", "the", "for", "with"] [some "Python, SQL, Tableau"] =
      {"python", "sql", "tableau"} := by
  refine ⟨?_, by decide, by decide⟩
  intro sw read
  cases read with
  | none =>
    refine ⟨List.sorted_nil, List.nodup_nil, ?_⟩
    intro s hs
    simp [load_skillsFirst] at hs
  | some cells =>
    refine ⟨pySorted_sorted (skillsFromCells sw cells),
      pySorted_nodup (skillsFromCells sw cells), ?_⟩
    intro s hs
    rw [show load_skillsFirst sw (some cells) = pySorted (skillsFromCells sw cells)
      from rfl, mem_pySorted, mem_skillsFromCells] at hs
    obtain ⟨cell, _, hmem⟩ := hs
    rw [mem_cellSkills] at hmem
    obtain ⟨⟨p, _, hps⟩, hne, hlen, hsw⟩ := hmem
    refine ⟨hne, hlen, hsw, ?_⟩
    intro c hc
    rw [← hps] at hc
    simp only [pyLowerStr, List.mem_map] at hc
    obtain ⟨c', _, rfl⟩ := hc
    exact char_toLower_not_upper c'

/-! ## `extractOne` and the candidate loop of `extract_skills` -/

theorem extractOneGo_spec (q : String) (cs : List String) :
    ∀ (b : String) (sb : ℚ) (bi j : Nat), sb = tokenSortSim q b →
      ∃ m sm k, extractOneGo q cs (b, sb, bi) j = (m, sm, k) ∧
        sm = tokenSortSim q m ∧ (m = b ∨ m ∈ cs) ∧ sb ≤ sm ∧
        ∀ c ∈ cs, tokenSortSim q c ≤ sm := by
  induction cs with
  | nil =>
    intro b sb bi j hsb
    exact ⟨b, sb, bi, rfl, hsb, Or.inl rfl, le_refl _, by simp⟩
  | cons c cs ih =>
    intro b sb bi j hsb
    simp only [extractOneGo]
    by_cases hlt : sb < tokenSortSim q c
    · rw [if_pos hlt]
      obtain ⟨m, sm, k, heq, h1, h2, h3, h4⟩ := ih c (tokenSortSim q c) j (j + 1) rfl
      refine ⟨m, sm, k, heq, h1, ?_, ?_, ?_⟩
      · rcases h2 with rfl | h
        · exact Or.inr (List.mem_cons_self _ _)
        · exact Or.inr (List.mem_cons_of_mem _ h)
      · exact le_trans (le_of_lt hlt) h3
      · intro x hx
        rcases List.mem_cons.mp hx with rfl | hx'
        · exact h3
        · exact h4 x hx'
    · rw [if_neg hlt]
      obtain ⟨m, sm, k, heq, h1, h2, h3, h4⟩ := ih b sb bi (j + 1) hsb
      refine ⟨m, sm, k, heq, h1, ?_, h3, ?_⟩
      · rcases h2 with rfl | h
        · exact Or.inl rfl
        · exact Or.inr (List.mem_cons_of_mem _ h)
      · intro x hx
        rcases List.mem_cons.mp hx with rfl | hx'
        · exact le_trans (not_lt.mp hlt) h3
        · exact h4 x hx'

/-- `process.extractOne` returns a dictionary entry achieving the maximal
`token_sort_ratio` score against the query. -/
theorem extractOne_spec {q m : String} {sc : ℚ} {i : Nat} {choices : List String}
    (h : extractOne q choices = some (m, sc, i)) :
    m ∈ choices ∧ sc = tokenSortSim q m ∧ ∀ c ∈ choices, tokenSortSim q c ≤ sc := by
  cases choices with
  | nil => cases h
  | cons c0 cs =>
    simp only [extractOne, Option.some_inj] at h
    obtain ⟨m', sm, k, heq, h1, h2, h3, h4⟩ :=
      extractOneGo_spec q cs c0 (tokenSortSim q c0) 0 1 rfl
    rw [heq] at h
    injection h with hma hrest
    injection hrest with hsa hka
    subst hma
    subst hsa
    subst hka
    refine ⟨?_, h1, ?_⟩
    · rcases h2 with rfl | hmm
      · exact List.mem_cons_self _ _
      · exact List.mem_cons_of_mem _ hmm
    · intro c hx
      rcases List.mem_cons.mp hx with rfl | hx'
      · exact h3
      · exact h4 c hx'

theorem extractOne_eq_none_iff {q : String} {choices : List String} :
    extractOne q choices = none ↔ choices = [] := by
  cases choices <;> simp [extractOne]

theorem extractFold_ok {skills : List String} {thr : ℚ} (hne : skills ≠ []) :
    ∀ (cs : List String) (acc : Finset String × Finset String),
      ∃ df, cs.foldlM (extractStep skills thr) acc = Except.ok df ∧
        (∀ s, s ∈ df.1 ↔ s ∈ acc.1 ∨ (s ∈ cs ∧ skills.contains s = true)) ∧
        (∀ s, s ∈ df.2 ↔ s ∈ acc.2 ∨ ∃ cand ∈ cs, skills.contains cand = false ∧
          ∃ sc i, extractOne cand skills = some (s, sc, i) ∧ thr ≤ sc) := by
  intro cs
  induction cs with
  | nil =>
    intro acc
    exact ⟨acc, rfl, by simp, by simp⟩
  | cons c cs ih =>
    intro acc
    rw [List.foldlM_cons]
    by_cases hc : skills.contains c = true
    · obtain ⟨df, heq, h1, h2⟩ := ih (insert c acc.1, acc.2)
      refine ⟨df, ?_, ?_, ?_⟩
      · rw [show extractStep skills thr acc c = Except.ok (insert c acc.1, acc.2) from by
          unfold extractStep
          rw [if_pos hc]]
        simpa using heq
      · intro s
        rw [h1 s]
        simp only [Finset.mem_insert, List.mem_cons]
        constructor
        · rintro (⟨rfl | hs⟩ | ⟨hs, hct⟩)
          · exact Or.inr ⟨Or.inl rfl, hc⟩
          · exact Or.inl hs
          · exact Or.inr ⟨Or.inr hs, hct⟩
        · rintro (hs | ⟨rfl | hs, hct⟩)
          · exact Or.inl (Or.inr hs)
          · exact Or.inl (Or.inl rfl)
          · exact Or.inr ⟨hs, hct⟩
      · intro s
        rw [h2 s]
        constructor
        · rintro (hs | ⟨cand, hcand, hrest⟩)
          · exact Or.inl hs
          · exact Or.inr ⟨cand, List.mem_cons_of_mem _ hcand, hrest⟩
        · rintro (hs | ⟨cand, hcand, hctf, hrest⟩)
          · exact Or.inl hs
          · rcases List.mem_cons.mp hcand with rfl | hcand'
            · rw [hc] at hctf
              cases hctf
            · exact Or.inr ⟨cand, hcand', hctf, hrest⟩
    · rw [Bool.not_eq_true] at hc
      cases hext : extractOne c skills with
      | none => exact absurd (extractOne_eq_none_iff.mp hext) hne
      | some t =>
        obtain ⟨m, sc, i⟩ := t
        by_cases hth : thr ≤ sc
        · obtain ⟨df, heq, h1, h2⟩ := ih (acc.1, insert m acc.2)
          refine ⟨df, ?_, ?_, ?_⟩
          · rw [show extractStep skills thr acc c = Except.ok (acc.1, insert m acc.2) from by
              unfold extractStep
              rw [if_neg (by rw [hc]; exact Bool.false_ne_true), hext]
              show (if thr ≤ sc then Except.ok (acc.1, insert m acc.2)
                else Except.ok acc) = Except.ok (acc.1, insert m acc.2)
              exact if_pos hth]
            simpa using heq
          · intro s
            rw [h1 s]
            constructor
            · rintro (hs | ⟨hs, hct⟩)
              · exact Or.inl hs
              · exact Or.inr ⟨List.mem_cons_of_mem _ hs, hct⟩
            · rintro (hs | ⟨hs, hct⟩)
              · exact Or.inl hs
              · rcases List.mem_cons.mp hs with rfl | hs'
                · rw [hct] at hc
                  cases hc
                · exact Or.inr ⟨hs', hct⟩
          · intro s
            rw [h2 s]
            simp only [Finset.mem_insert]
            constructor
            · rintro (⟨rfl | hs⟩ | ⟨cand, hcand, hrest⟩)
              · exact Or.inr ⟨c, List.mem_cons_self _ _, hc, sc, i, hext, hth⟩
              · exact Or.inl hs
              · exact Or.inr ⟨cand, List.mem_cons_of_mem _ hcand, hrest⟩
            · rintro (hs | ⟨cand, hcand, hctf, sc', i', hext', hth'⟩)
              · exact Or.inl (Or.inr hs)
              · rcases List.mem_cons.mp hcand with rfl | hcand'
                · rw [hext] at hext'
                  injection hext' with htup
                  injection htup with hms hrest
                  exact Or.inl (Or.inl hms.symm)
                · exact Or.inr ⟨cand, hcand', hctf, sc', i', hext', hth'⟩
        · obtain ⟨df, heq, h1, h2⟩ := ih acc
          refine ⟨df, ?_, ?_, ?_⟩
          · rw [show extractStep skills thr acc c = Except.ok acc from by
              unfold extractStep
              rw [if_neg (by rw [hc]; exact Bool.false_ne_true), hext]
              show (if thr ≤ sc then Except.ok (acc.1, insert m acc.2)
                else Except.ok acc) = Except.ok acc
              exact if_neg hth]
            simpa using heq
          · intro s
            rw [h1 s]
            constructor
            · rintro (hs | ⟨hs, hct⟩)
              · exact Or.inl hs
              · exact Or.inr ⟨List.mem_cons_of_mem _ hs, hct⟩
            · rintro (hs | ⟨hs, hct⟩)
              · exact Or.inl hs
              · rcases List.mem_cons.mp hs with rfl | hs'
                · rw [hct] at hc
                  cases hc
                · exact Or.inr ⟨hs', hct⟩
          · intro s
            rw [h2 s]
            constructor
            · rintro (hs | ⟨cand, hcand, hrest⟩)
              · exact Or.inl hs
              · exact Or.inr ⟨cand, List.mem_cons_of_mem _ hcand, hrest⟩
            · rintro (hs | ⟨cand, hcand, hctf, sc', i', hext', hth'⟩)
              · exact Or.inl hs
              · rcases List.mem_cons.mp hcand with rfl | hcand'
                · rw [hext] at hext'
                  injection hext' with htup
                  injection htup with hms hrest
                  injection hrest with hsc hidx
                  rw [← hsc] at hth'
                  exact absurd hth' hth
                · exact Or.inr ⟨cand, hcand', hctf, sc', i', hext', hth'⟩

/-! ## C6: `extract_skills` edge cases -/

/-- C6: on empty text the effective `extract_skills` returns an empty result
without error (the spaCy pipeline produces no tokens or chunks for `""`).
With an *empty skill dictionary* and a text that yields at least one
candidate, however, the effective definition (lines 240-268) unpacks
`process.extractOne(cand, [], ...) = None` and raises `TypeError` —
exemplified on the text `"python developer"` — whereas the shadowed first
definition (lines 91-124) guards the call with `try`/`except`/`if res:`. -/
theorem extract_skills_edge_cases :
    (∀ sw tk skills thr, tk.tokens "" = [] → tk.chunks "" = [] →
      extract_skills sw tk skills "" thr = Except.ok ⟨[], []⟩) ∧
    extract_skills [] ⟨fun _ => [⟨"python", true⟩, ⟨"developer", true⟩], fun _ => []⟩
      [] "python developer" defaultFuzzyThreshold = Except.error PyError.typeError := by
  constructor
  · intro sw tk skills thr h1 h2
    have hc : cleanTextStr "" = "" := rfl
    simp only [extract_skills, hc, candidateSet, h1, h2, List.filter_nil, List.map_nil,
      List.toFinset_nil, Finset.empty_union]
    rfl
  · rfl

/-! ## C7: fuzzy matching in `extract_skills` -/

/-- C7: in the effective `extract_skills`, a candidate equal to a dictionary
entry is recorded under `dict_skills`; every other candidate is compared via
`extractOne` to the entry with the highest `token_sort_ratio` score (0-100),
and when that score reaches the threshold the *matched entry's* canonical
spelling is recorded under `fuzzy_skills` (in particular recorded strings
are dictionary entries).  However the *default* threshold of the effective
definition is 80, not ~85-88 (which is the shadowed first definition's 88):
the candidate `"abcde"` scores exactly 80 against the dictionary entry
`"abcdx"` and *is* recorded under the default. -/
theorem extract_skills_fuzzy_behaviour :
    (∀ sw tk skills text thr, skills ≠ [] →
      ∃ out, extract_skills sw tk skills text thr = Except.ok out ∧
        (∀ s, s ∈ out.dict_skills ↔
          s ∈ candidateSet sw tk (cleanTextStr text) ∧ skills.contains s = true) ∧
        (∀ s, s ∈ out.fuzzy_skills ↔
          ∃ cand ∈ candidateSet sw tk (cleanTextStr text), skills.contains cand = false ∧
            ∃ sc i, extractOne cand skills = some (s, sc, i) ∧ thr ≤ sc) ∧
        (∀ s ∈ out.fuzzy_skills, s ∈ skills)) ∧
    (∀ (q m : String) (sc : ℚ) (i : Nat) (choices : List String),
      extractOne q choices = some (m, sc, i) →
        m ∈ choices ∧ sc = tokenSortSim q m ∧ ∀ c ∈ choices, tokenSortSim q c ≤ sc) ∧
    defaultFuzzyThreshold = 80 ∧
    extract_skills [] ⟨fun _ => [⟨"abcde", true⟩], fun _ => []⟩ ["abcdx"] "abcde"
      defaultFuzzyThreshold = Except.ok ⟨[], ["abcdx"]⟩ ∧
    tokenSortSim "abcde" "abcdx" = 80 ∧ (80 : ℚ) < 85 := by
  refine ⟨?_, fun q m sc i choices h => extractOne_spec h, rfl, ?_, ?_, by norm_num⟩
  · intro sw tk skills text thr hne
    obtain ⟨df, heq, h1, h2⟩ :=
      extractFold_ok hne (pySorted (candidateSet sw tk (cleanTextStr text))) (∅, ∅)
    refine ⟨⟨pySorted df.1, pySorted df.2⟩, ?_, ?_, ?_, ?_⟩
    · simp only [extract_skills]
      rw [heq]
      rfl
    · intro s
      rw [show (SkillsDict.mk (pySorted df.1) (pySorted df.2)).dict_skills
        = pySorted df.1 from rfl, mem_pySorted, h1 s]
      simp [mem_pySorted]
    · intro s
      rw [show (SkillsDict.mk (pySorted df.1) (pySorted df.2)).fuzzy_skills
        = pySorted df.2 from rfl, mem_pySorted, h2 s]
      constructor
      · rintro (hs | ⟨cand, hcand, hrest⟩)
        · simp at hs
        · exact ⟨cand, mem_pySorted.mp hcand, hrest⟩
      · rintro ⟨cand, hcand, hrest⟩
        exact Or.inr ⟨cand, mem_pySorted.mpr hcand, hrest⟩
    · intro s hs
      rw [show (SkillsDict.mk (pySorted df.1) (pySorted df.2)).fuzzy_skills
        = pySorted df.2 from rfl, mem_pySorted, h2 s] at hs
      rcases hs with hs | ⟨cand, _, _, sc, i, hext, _⟩
      · simp at hs
      · exact (extractOne_spec hext).1
  · rfl
  · have h : tokenSortSim "abcde" "abcdx" = mkRat 800 10 := rfl
    rw [h, mkRat_eq_div']
    norm_num

/-! ## Basic lemmas about the `re` matcher -/

theorem sfx_cons {t s : List Char} (c : Char) (h : t <:+ s) : t <:+ c :: s := by
  obtain ⟨u, rfl⟩ := h
  exact ⟨c :: u, rfl⟩

theorem tryDown_some {f : Nat → Option (List Char)} {lo : Nat} :
    ∀ {k : Nat} {r : List Char}, tryDown f lo k = some r →
      ∃ j, lo ≤ j ∧ j ≤ k ∧ f j = some r := by
  intro k
  induction k with
  | zero =>
    intro r h
    simp only [tryDown] at h
    split at h
    · exact ⟨0, by omega, le_refl 0, h⟩
    · cases h
  | succ k ih =>
    intro r h
    simp only [tryDown] at h
    split at h
    · cases h
    · cases hf : f (k + 1) with
      | some v =>
        rw [hf, Option.some_orElse] at h
        exact ⟨k + 1, by omega, le_refl _, by rw [hf, h]⟩
      | none =>
        rw [hf, Option.none_orElse] at h
        obtain ⟨j, hj1, hj2, hj3⟩ := ih h
        exact ⟨j, hj1, Nat.le_succ_of_le hj2, hj3⟩

theorem tryDown_isSome {f : Nat → Option (List Char)} {lo j : Nat} :
    ∀ {k : Nat}, lo ≤ j → j ≤ k → (f j).isSome = true →
      (tryDown f lo k).isSome = true := by
  intro k
  induction k with
  | zero =>
    intro h1 h2 h3
    have hj : j = 0 := Nat.le_zero.mp h2
    subst hj
    simp only [tryDown, if_pos (Nat.le_zero.mp h1)]
    exact h3
  | succ k ih =>
    intro h1 h2 h3
    simp only [tryDown, if_neg (by omega : ¬ k + 1 < lo)]
    rcases Nat.lt_or_ge j (k + 1) with hj | hj
    · have hrec := ih h1 (by omega) h3
      cases hf : f (k + 1) with
      | some v => simp [hf]
      | none => simpa [hf] using hrec
    · have hjk : j = k + 1 := by omega
      subst hjk
      cases hf : f (k + 1) with
      | some v => simp [hf]
      | none => rw [hf] at h3; cases h3

theorem matchOneC_some {p : Char → Bool} {k : List Char → Option (List Char)} :
    ∀ {s r : List Char}, matchOneC p k s = some r →
      ∃ c s', s = c :: s' ∧ p c = true ∧ k s' = some r := by
  intro s r h
  cases s with
  | nil => cases h
  | cons c s' =>
    simp only [matchOneC] at h
    split at h
    · exact ⟨c, s', rfl, by assumption, h⟩
    · cases h

theorem matchItems_suffix :
    ∀ {items : List Item} {s r : List Char}, matchItems items s = some r → r <:+ s := by
  intro items
  induction items with
  | nil =>
    intro s r h
    simp only [matchItems, Option.some_inj] at h
    exact h ▸ List.suffix_refl r
  | cons it rest ih =>
    intro s r h
    obtain ⟨p, q⟩ := it
    cases q with
    | one =>
      simp only [matchItems] at h
      obtain ⟨c, s', rfl, -, hk⟩ := matchOneC_some h
      exact sfx_cons c (ih hk)
    | opt =>
      simp only [matchItems] at h
      rcases (Option.orElse_eq_some _ _ _).mp h with h1 | ⟨-, h2⟩
      · obtain ⟨c, s', rfl, -, hk⟩ := matchOneC_some h1
        exact sfx_cons c (ih hk)
      · exact ih h2
    | plus =>
      simp only [matchItems] at h
      obtain ⟨j, -, -, hj⟩ := tryDown_some h
      exact (ih hj).trans (List.drop_suffix j s)
    | atLeast n =>
      simp only [matchItems] at h
      obtain ⟨j, -, -, hj⟩ := tryDown_some h
      exact (ih hj).trans (List.drop_suffix j s)

theorem matchAlt_some_branch :
    ∀ {pat : List (List Item)} {s r : List Char}, matchAlt pat s = some r →
      ∃ b ∈ pat, matchItems b s = some r := by
  intro pat
  induction pat with
  | nil => intro s r h; cases h
  | cons b bs ih =>
    intro s r h
    simp only [matchAlt] at h
    rcases (Option.orElse_eq_some _ _ _).mp h with h1 | ⟨-, h2⟩
    · exact ⟨b, List.mem_cons_self _ _, h1⟩
    · obtain ⟨b2, hb2, hm⟩ := ih h2
      exact ⟨b2, List.mem_cons_of_mem _ hb2, hm⟩

theorem matchAlt_suffix {pat : List (List Item)} {s r : List Char}
    (h : matchAlt pat s = some r) : r <:+ s := by
  obtain ⟨b, -, hm⟩ := matchAlt_some_branch h
  exact matchItems_suffix hm

theorem matchItems_mandatory {p : Char → Bool} :
    ∀ {items : List Item} {s r : List Char}, Item.mk p .one ∈ items →
      matchItems items s = some r → ∃ c ∈ s, p c = true := by
  intro items
  induction items with
  | nil => intro s r hmem; cases hmem
  | cons it rest ih =>
    intro s r hmem h
    obtain ⟨p2, q⟩ := it
    rcases List.mem_cons.mp hmem with heq | hmem2
    · injection heq with h1 h2
      subst h1
      subst h2
      simp only [matchItems] at h
      obtain ⟨c, s', rfl, hc, -⟩ := matchOneC_some h
      exact ⟨c, List.mem_cons_self _ _, hc⟩
    · cases q with
      | one =>
        simp only [matchItems] at h
        obtain ⟨c, s', rfl, -, hk⟩ := matchOneC_some h
        obtain ⟨c2, hc2, hp⟩ := ih hmem2 hk
        exact ⟨c2, List.mem_cons_of_mem _ hc2, hp⟩
      | opt =>
        simp only [matchItems] at h
        rcases (Option.orElse_eq_some _ _ _).mp h with h1 | ⟨-, h2⟩
        · obtain ⟨c, s', rfl, -, hk⟩ := matchOneC_some h1
          obtain ⟨c2, hc2, hp⟩ := ih hmem2 hk
          exact ⟨c2, List.mem_cons_of_mem _ hc2, hp⟩
        · exact ih hmem2 h2
      | plus =>
        simp only [matchItems] at h
        obtain ⟨j, -, -, hj⟩ := tryDown_some h
        obtain ⟨c2, hc2, hp⟩ := ih hmem2 hj
        exact ⟨c2, List.mem_of_mem_drop hc2, hp⟩
      | atLeast n =>
        simp only [matchItems] at h
        obtain ⟨j, -, -, hj⟩ := tryDown_some h
        obtain ⟨c2, hc2, hp⟩ := ih hmem2 hj
        exact ⟨c2, List.mem_of_mem_drop hc2, hp⟩

theorem matchAlt_eq_none {p : Char → Bool} {pat : List (List Item)}
    (hmem : ∀ b ∈ pat, Item.mk p .one ∈ b) {s : List Char}
    (hall : ∀ c ∈ s, p c = false) : matchAlt pat s = none := by
  cases hma : matchAlt pat s with
  | none => rfl
  | some r =>
    exfalso
    obtain ⟨b, hb, hm⟩ := matchAlt_some_branch hma
    obtain ⟨c, hc, hp⟩ := matchItems_mandatory (hmem b hb) hm
    rw [hall c hc] at hp
    cases hp

theorem subAllF_id {pat : List (List Item)} {repl : List Char} :
    ∀ (fuel : Nat) (s : List Char), (∀ t, t <:+ s → matchAlt pat t = none) →
      subAllF pat repl fuel s = s := by
  intro fuel
  induction fuel with
  | zero => intro s _; cases s <;> rfl
  | succ fu ih =>
    intro s h
    cases s with
    | nil => rfl
    | cons c rest =>
      have hm := h (c :: rest) (List.suffix_refl _)
      simp only [subAllF, hm]
      exact congrArg (c :: ·) (ih rest fun t ht => h t (sfx_cons c ht))

/-- `subAll` leaves a string unchanged when the pattern matches at no
position. -/
theorem subAll_id {pat : List (List Item)} {repl s : List Char}
    (h : ∀ t, t <:+ s → matchAlt pat t = none) : subAll pat repl s = s :=
  subAllF_id s.length s h

/-! ## Character tracking through substitutions -/

theorem subAllF_nil {pat : List (List Item)} {repl : List Char} {fuel : Nat} :
    subAllF pat repl fuel [] = [] := by
  cases fuel <;> rfl

theorem subAllF_chars {pat : List (List Item)} {repl : List Char} :
    ∀ (fuel : Nat) (s : List Char), ∀ c ∈ subAllF pat repl fuel s, c ∈ repl ∨ c ∈ s := by
  intro fuel
  induction fuel with
  | zero =>
    intro s c hc
    cases s with
    | nil => simp [subAllF] at hc
    | cons a rest => exact Or.inr hc
  | succ fu ih =>
    intro s c hc
    cases s with
    | nil => simp [subAllF] at hc
    | cons a rest =>
      simp only [subAllF] at hc
      split at hc
      · rename_i r hm
        split at hc
        · rcases List.mem_append.mp hc with h | h
          · exact Or.inl h
          · rcases ih r c h with h2 | h2
            · exact Or.inl h2
            · exact Or.inr ((matchAlt_suffix hm).subset h2)
        · rcases List.mem_cons.mp hc with rfl | h
          · exact Or.inr (List.mem_cons_self _ _)
          · rcases ih rest c h with h2 | h2
            · exact Or.inl h2
            · exact Or.inr (List.mem_cons_of_mem _ h2)
      · rcases List.mem_cons.mp hc with rfl | h
        · exact Or.inr (List.mem_cons_self _ _)
        · rcases ih rest c h with h2 | h2
          · exact Or.inl h2
          · exact Or.inr (List.mem_cons_of_mem _ h2)

theorem subAllF_kept {pat : List (List Item)} {p : Char → Bool}
    (hp : ∀ c rest, p c = true → (matchAlt pat (c :: rest)).isSome = true)
    (hp2 : ∀ s r, matchAlt pat s = some r → r.length < s.length) :
    ∀ (fuel : Nat) (s : List Char), s.length ≤ fuel →
      ∀ c ∈ subAllF pat [' '] fuel s, c = ' ' ∨ (p c = false ∧ c ∈ s) := by
  intro fuel
  induction fuel with
  | zero =>
    intro s hs c hc
    cases s with
    | nil => simp [subAllF] at hc
    | cons a rest => simp at hs
  | succ fu ih =>
    intro s hs c hc
    cases s with
    | nil => simp [subAllF] at hc
    | cons a rest =>
      simp only [subAllF] at hc
      split at hc
      · rename_i r hm
        have hlt : r.length ≤ rest.length := by
          have := hp2 _ _ hm
          simp only [List.length_cons] at this
          omega
        rw [if_pos hlt] at hc
        rcases List.mem_append.mp hc with h | h
        · exact Or.inl (List.mem_singleton.mp h)
        · have hfu : r.length ≤ fu := by
            simp only [List.length_cons] at hs
            omega
          rcases ih r hfu c h with h2 | ⟨h2, h3⟩
          · exact Or.inl h2
          · exact Or.inr ⟨h2, (matchAlt_suffix hm).subset h3⟩
      · rename_i hm
        rcases List.mem_cons.mp hc with rfl | h
        · refine Or.inr ⟨?_, List.mem_cons_self _ _⟩
          cases hpa : p c
          · rfl
          · have := hp c rest hpa
            rw [hm] at this
            cases this
        · have hfu : rest.length ≤ fu := by
            simp only [List.length_cons] at hs
            omega
          rcases ih rest hfu c h with h2 | ⟨h2, h3⟩
          · exact Or.inl h2
          · exact Or.inr ⟨h2, List.mem_cons_of_mem _ h3⟩

/-! ## The whitespace-collapsing pattern -/

theorem dw_head {p : Char → Bool} :
    ∀ {l : List Char} {c : Char}, (l.dropWhile p).head? = some c → p c = false := by
  intro l
  induction l with
  | nil => intro c h; cases h
  | cons a l ih =>
    intro c h
    rw [List.dropWhile_cons] at h
    split at h
    · exact ih h
    · injection h with h2
      subst h2
      simp_all

theorem dw_id {p : Char → Bool} {l : List Char}
    (h : ∀ c, l.head? = some c → p c = false) : l.dropWhile p = l := by
  cases l with
  | nil => rfl
  | cons a l =>
    rw [List.dropWhile_cons, if_neg]
    rw [h a rfl]
    simp

theorem specialPat_head_match {c : Char} {rest : List Char} (hc : specialCls c = true) :
    matchAlt specialPat (c :: rest) = some rest := by
  simp [matchAlt, specialPat, matchItems, matchOneC, hc]

theorem specialPat_progress :
    ∀ (s r : List Char), matchAlt specialPat s = some r → r.length < s.length := by
  intro s r h
  obtain ⟨b, hb, hm⟩ := matchAlt_some_branch h
  simp only [specialPat, List.mem_singleton] at hb
  subst hb
  simp only [matchItems] at hm
  obtain ⟨c, s', rfl, -, hk⟩ := matchOneC_some hm
  simp only [matchItems, Option.some_inj] at hk
  subst hk
  simp

theorem wsPat_match_eq {c : Char} {rest : List Char} (hc : pySp c = true) :
    matchAlt wsPat (c :: rest) = some (List.dropWhile pySp (c :: rest)) := by
  have hrun : ∃ m, (List.takeWhile pySp (c :: rest)).length = m + 1 := by
    rw [List.takeWhile_cons, if_pos hc]
    exact ⟨(List.takeWhile pySp rest).length, by simp⟩
  obtain ⟨m, hm⟩ := hrun
  have hdrop : List.drop ((List.takeWhile pySp (c :: rest)).length) (c :: rest) =
      List.dropWhile pySp (c :: rest) := by
    have h2 := List.drop_left (List.takeWhile pySp (c :: rest))
      (List.dropWhile pySp (c :: rest))
    rw [List.takeWhile_append_dropWhile] at h2
    exact h2
  simp only [matchAlt, wsPat, matchItems, hm]
  rw [show tryDown (fun k => some (List.drop k (c :: rest))) 1 (m + 1) =
      some (List.drop (m + 1) (c :: rest)) from by
    simp [tryDown]]
  rw [Option.some_orElse, ← hm, hdrop]

theorem wsPat_no_match {c : Char} {rest : List Char} (hc : pySp c = false) :
    matchAlt wsPat (c :: rest) = none := by
  have hrun : (List.takeWhile pySp (c :: rest)).length = 0 := by
    rw [List.takeWhile_cons, if_neg (by rw [hc]; simp)]
    rfl
  simp [matchAlt, wsPat, matchItems, hrun, tryDown]

theorem wsPat_progress :
    ∀ (s r : List Char), matchAlt wsPat s = some r → r.length < s.length := by
  intro s r h
  cases s with
  | nil =>
    rw [show matchAlt wsPat [] = none from by simp [matchAlt, wsPat, matchItems, tryDown]] at h
    cases h
  | cons c rest =>
    cases hc : pySp c with
    | false => rw [wsPat_no_match hc] at h; cases h
    | true =>
      rw [wsPat_match_eq hc] at h
      injection h with h2
      subst h2
      rw [List.dropWhile_cons, if_pos hc]
      calc (List.dropWhile pySp rest).length ≤ rest.length := (List.dropWhile_suffix pySp).length_le
        _ < (c :: rest).length := by simp

/-- Head of the output of the whitespace collapse, when the input head is
not whitespace. -/
theorem subAllF_ws_head :
    ∀ (fuel : Nat) {c : Char} {rest : List Char}, pySp c = false →
      (subAllF wsPat [' '] fuel (c :: rest)).head? = some c := by
  intro fuel c rest hc
  cases fuel with
  | zero => rfl
  | succ fu => simp [subAllF, wsPat_no_match hc]

theorem subAllF_ws_chain :
    ∀ (fuel : Nat) (s : List Char), s.length ≤ fuel →
      List.Chain' (fun a b => ¬(pySp a = true ∧ pySp b = true))
        (subAllF wsPat [' '] fuel s) := by
  intro fuel
  induction fuel with
  | zero =>
    intro s hs
    cases s with
    | nil => simp [subAllF]
    | cons a rest => simp at hs
  | succ fu ih =>
    intro s hs
    cases s with
    | nil => simp [subAllF]
    | cons a rest =>
      cases ha : pySp a with
      | true =>
        rw [show subAllF wsPat [' '] (fu + 1) (a :: rest) =
            [' '] ++ subAllF wsPat [' '] fu (List.dropWhile pySp (a :: rest)) from by
          have hle : (List.dropWhile pySp (a :: rest)).length ≤ rest.length := by
            rw [List.dropWhile_cons, if_pos ha]
            exact (List.dropWhile_suffix pySp).length_le
          simp [subAllF, wsPat_match_eq ha, hle]]
        have hlen : (List.dropWhile pySp (a :: rest)).length ≤ fu := by
          have : (List.dropWhile pySp (a :: rest)).length ≤ rest.length := by
            rw [List.dropWhile_cons, if_pos ha]
            exact (List.dropWhile_suffix pySp).length_le
          simp only [List.length_cons] at hs
          omega
        rw [List.singleton_append]
        rw [List.chain'_cons']
        refine ⟨?_, ih _ hlen⟩
        intro b hb
        cases hd : List.dropWhile pySp (a :: rest) with
        | nil =>
          rw [hd] at hb
          cases fu <;> simp [subAllF] at hb
        | cons d rest2 =>
          have hdns : pySp d = false := dw_head (by rw [hd]; rfl)
          rw [hd, subAllF_ws_head fu hdns] at hb
          simp only [Option.mem_def, Option.some_inj] at hb
          subst hb
          rw [hdns]
          simp
      | false =>
        rw [show subAllF wsPat [' '] (fu + 1) (a :: rest) =
            a :: subAllF wsPat [' '] fu rest from by
          simp [subAllF, wsPat_no_match ha]]
        rw [List.chain'_cons']
        have hlen : rest.length ≤ fu := by
          simp only [List.length_cons] at hs
          omega
        refine ⟨?_, ih _ hlen⟩
        intro b _
        rw [ha]
        simp

/-- The whitespace collapse is the identity on strings whose spaces are
isolated `' '` characters and which do not end in whitespace. -/
theorem subAllF_ws_id :
    ∀ (fuel : Nat) (s : List Char), s.length ≤ fuel →
      List.Chain' (fun a b => ¬(pySp a = true ∧ pySp b = true)) s →
      (∀ c ∈ s, pySp c = true → c = ' ') →
      (∀ c, s.getLast? = some c → pySp c = false) →
      subAllF wsPat [' '] fuel s = s := by
  intro fuel
  induction fuel with
  | zero =>
    intro s hs _ _ _
    cases s with
    | nil => rfl
    | cons a rest => simp at hs
  | succ fu ih =>
    intro s hs hch hsp hlast
    cases s with
    | nil => rfl
    | cons a rest =>
      cases ha : pySp a with
      | false =>
        rw [show subAllF wsPat [' '] (fu + 1) (a :: rest) =
            a :: subAllF wsPat [' '] fu rest from by
          simp [subAllF, wsPat_no_match ha]]
        cases rest with
        | nil => rw [subAllF_nil]
        | cons b rest2 =>
          have hlen : (b :: rest2).length ≤ fu := by
            simp only [List.length_cons] at hs ⊢
            omega
          rw [ih (b :: rest2) hlen (List.chain'_cons.mp hch).2
            (fun c hc hc2 => hsp c (List.mem_cons_of_mem _ hc) hc2)
            (fun c hc => hlast c (by rw [List.getLast?_cons_cons]; exact hc))]
      | true =>
        have ha' : a = ' ' := hsp a (List.mem_cons_self _ _) ha
        cases rest with
        | nil =>
          exfalso
          have := hlast a rfl
          rw [ha] at this
          cases this
        | cons b rest2 =>
          have hb : pySp b = false := by
            have hrel := (List.chain'_cons.mp hch).1
            cases hpb : pySp b
            · rfl
            · exact absurd ⟨ha, hpb⟩ hrel
          have hm : matchAlt wsPat (a :: b :: rest2) = some (b :: rest2) := by
            rw [wsPat_match_eq ha, List.dropWhile_cons, if_pos ha,
              List.dropWhile_cons, if_neg (by rw [hb]; simp)]
          rw [show subAllF wsPat [' '] (fu + 1) (a :: b :: rest2) =
              [' '] ++ subAllF wsPat [' '] fu (b :: rest2) from by
            simp [subAllF, hm]]
          have hlen : (b :: rest2).length ≤ fu := by
            simp only [List.length_cons] at hs ⊢
            omega
          rw [ih (b :: rest2) hlen (List.chain'_cons.mp hch).2
            (fun c hc hc2 => hsp c (List.mem_cons_of_mem _ hc) hc2)
            (fun c hc => hlast c (by rw [List.getLast?_cons_cons]; exact hc)),
            ha', List.singleton_append]

/-! ## `pyStripL` facts -/

theorem pyStripL_subset {l : List Char} : ∀ c ∈ pyStripL l, c ∈ l := by
  intro c hc
  simp only [pyStripL, List.mem_reverse] at hc
  have h1 := (List.dropWhile_suffix (l := (l.dropWhile pySp).reverse) pySp).subset hc
  rw [List.mem_reverse] at h1
  exact (List.dropWhile_suffix pySp).subset h1

theorem getLast?_sfx {t v : List Char} (h : t <:+ v) (hne : t ≠ []) :
    v.getLast? = t.getLast? := by
  obtain ⟨w, rfl⟩ := h
  induction w with
  | nil => rfl
  | cons a w ih =>
    rw [List.cons_append, List.getLast?_cons, ih]
    have : t.getLast? ≠ none := by
      cases hT : t with
      | nil => exact absurd hT hne
      | cons x xs => simp [List.getLast?_cons]
    cases hg : t.getLast? with
    | none => exact absurd hg this
    | some g => simp [ih, hg]

theorem pyStripL_head {l : List Char} {c : Char} (h : (pyStripL l).head? = some c) :
    pySp c = false := by
  simp only [pyStripL] at h
  rw [List.head?_reverse] at h
  have hne : (l.dropWhile pySp).reverse.dropWhile pySp ≠ [] := by
    intro he
    rw [he] at h
    cases h
  rw [← getLast?_sfx (List.dropWhile_suffix pySp) hne, List.getLast?_reverse] at h
  exact dw_head h

theorem pyStripL_getLast {l : List Char} {c : Char} (h : (pyStripL l).getLast? = some c) :
    pySp c = false := by
  simp only [pyStripL] at h
  rw [List.getLast?_reverse] at h
  exact dw_head h

/-! ## Factors (contiguous substrings) and substitution -/

theorem tw_len {p : Char → Bool} {l : List Char} : (l.takeWhile p).length ≤ l.length := by
  induction l with
  | nil => simp
  | cons a l ih =>
    rw [List.takeWhile_cons]
    split
    · simpa using ih
    · simp

theorem facTrans {l m s : List Char} (h1 : l <:+: m) (h2 : m <:+: s) : l <:+: s := by
  obtain ⟨u1, v1, rfl⟩ := h1
  obtain ⟨u2, v2, rfl⟩ := h2
  exact ⟨u2 ++ u1, v1 ++ v2, by simp⟩

theorem facOfSfx {l s : List Char} (h : l <:+ s) : l <:+: s := by
  obtain ⟨u, rfl⟩ := h
  exact ⟨u, [], by simp⟩

theorem facOfLead {l s : List Char} (h : l <+: s) : l <:+: s := by
  obtain ⟨v, rfl⟩ := h
  exact ⟨[], v, by simp⟩

theorem facConsCases {l : List Char} {x : Char} {xs : List Char} (h : l <:+: x :: xs) :
    l <+: x :: xs ∨ l <:+: xs := by
  obtain ⟨u, v, huv⟩ := h
  cases u with
  | nil => exact Or.inl ⟨v, by simpa using huv⟩
  | cons b u2 =>
    injection huv with h1 h2
    exact Or.inr ⟨u2, v, h2⟩

theorem facCons {l : List Char} (x : Char) {xs : List Char} (h : l <:+: xs) :
    l <:+: x :: xs := by
  obtain ⟨u, v, rfl⟩ := h
  exact ⟨x :: u, v, rfl⟩

theorem leadConsCases {c : Char} {p s : List Char} {a : Char}
    (h : c :: p <+: a :: s) : c = a ∧ p <+: s := by
  obtain ⟨v, hv⟩ := h
  injection hv with h1 h2
  exact ⟨h1, v, h2⟩

theorem fac_nil {l : List Char} (h : l <:+: ([] : List Char)) : l = [] := by
  obtain ⟨u, v, huv⟩ := h
  have h2 := (List.append_eq_nil.mp huv).1
  exact (List.append_eq_nil.mp h2).2

theorem pyStripL_fac {l : List Char} : pyStripL l <:+: l := by
  have h1 : l.dropWhile pySp <:+ l := List.dropWhile_suffix pySp
  have h2 : (l.dropWhile pySp).reverse.dropWhile pySp <:+ (l.dropWhile pySp).reverse :=
    List.dropWhile_suffix pySp
  obtain ⟨w, hw⟩ := h2
  have h3 : pyStripL l <+: l.dropWhile pySp := by
    refine ⟨w.reverse, ?_⟩
    have := congrArg List.reverse hw
    simpa [pyStripL] using this
  exact facTrans (facOfLead h3) (facOfSfx h1)

/-- A whitespace-free prefix of a substitution output (with replacement
`" "`) is a prefix of the input. -/
theorem subAllF_lead {pat : List (List Item)} :
    ∀ (fuel : Nat) (s p' : List Char), (∀ c ∈ p', pySp c = false) →
      p' <+: subAllF pat [' '] fuel s → p' <+: s := by
  intro fuel
  induction fuel with
  | zero =>
    intro s p' hsf hp
    cases s with
    | nil => exact hp
    | cons a rest => exact hp
  | succ fu ih =>
    intro s p' hsf hp
    cases s with
    | nil =>
      rw [subAllF_nil] at hp
      exact hp
    | cons a rest =>
      simp only [subAllF] at hp
      revert hp
      split
      · rename_i r hm
        split
        · intro hp
          cases p' with
          | nil => exact List.nil_prefix
          | cons c p2 =>
            obtain ⟨hca, -⟩ := leadConsCases hp
            exfalso
            have := hsf c (List.mem_cons_self _ _)
            rw [hca] at this
            cases this
        · intro hp
          cases p' with
          | nil => exact List.nil_prefix
          | cons c p2 =>
            obtain ⟨hca, hp2⟩ := leadConsCases hp
            subst hca
            obtain ⟨v, hv⟩ := ih rest p2 (fun x hx => hsf x (List.mem_cons_of_mem _ hx)) hp2
            exact ⟨v, by rw [List.cons_append, hv]⟩
      · intro hp
        cases p' with
        | nil => exact List.nil_prefix
        | cons c p2 =>
          obtain ⟨hca, hp2⟩ := leadConsCases hp
          subst hca
          obtain ⟨v, hv⟩ := ih rest p2 (fun x hx => hsf x (List.mem_cons_of_mem _ hx)) hp2
          exact ⟨v, by rw [List.cons_append, hv]⟩

/-- A nonempty whitespace-free factor of a substitution output is a factor
of the input. -/
theorem subAllF_fac {pat : List (List Item)} :
    ∀ (fuel : Nat) (s p' : List Char), p' ≠ [] → (∀ c ∈ p', pySp c = false) →
      p' <:+: subAllF pat [' '] fuel s → p' <:+: s := by
  intro fuel
  induction fuel with
  | zero =>
    intro s p' hne hsf hp
    cases s with
    | nil => exact hp
    | cons a rest => exact hp
  | succ fu ih =>
    intro s p' hne hsf hp
    cases s with
    | nil =>
      rw [subAllF_nil] at hp
      exact hp
    | cons a rest =>
      simp only [subAllF] at hp
      revert hp
      split
      · rename_i r hm
        split
        · intro hp
          rcases facConsCases hp with hlead | hfac
          · exfalso
            cases p' with
            | nil => exact hne rfl
            | cons c p2 =>
              obtain ⟨hca, -⟩ := leadConsCases hlead
              have := hsf c (List.mem_cons_self _ _)
              rw [hca] at this
              cases this
          · have h2 := ih r p' hne hsf hfac
            exact facTrans h2 (facOfSfx (matchAlt_suffix hm))
        · intro hp
          rcases facConsCases hp with hlead | hfac
          · cases p' with
            | nil => exact absurd rfl hne
            | cons c p2 =>
              obtain ⟨hca, hp2⟩ := leadConsCases hlead
              subst hca
              obtain ⟨v, hv⟩ := subAllF_lead fu rest p2
                (fun x hx => hsf x (List.mem_cons_of_mem _ hx)) hp2
              exact ⟨[], v, by rw [List.nil_append, List.cons_append, hv]⟩
          · exact facCons a (ih rest p' hne hsf hfac)
      · intro hp
        rcases facConsCases hp with hlead | hfac
        · cases p' with
          | nil => exact absurd rfl hne
          | cons c p2 =>
            obtain ⟨hca, hp2⟩ := leadConsCases hlead
            subst hca
            obtain ⟨v, hv⟩ := subAllF_lead fu rest p2
              (fun x hx => hsf x (List.mem_cons_of_mem _ hx)) hp2
            exact ⟨[], v, by rw [List.nil_append, List.cons_append, hv]⟩
        · exact facCons a (ih rest p' hne hsf hfac)

/-! ## The URL pattern: decomposition, construction, and the key invariant
that its output never contains `"http"` followed by a non-space. -/

theorem matchItems_lit {a : Char} {rest : List Item} {s r : List Char}
    (h : matchItems (litC a :: rest) s = some r) :
    ∃ s', s = a :: s' ∧ matchItems rest s' = some r := by
  simp only [matchItems, litC] at h
  obtain ⟨c, s', rfl, hc, hk⟩ := matchOneC_some h
  exact ⟨s', by rw [eq_of_beq hc], hk⟩

theorem matchItems_plusHead {p : Char → Bool} {rest : List Item} {s r : List Char}
    (h : matchItems (⟨p, .plus⟩ :: rest) s = some r) :
    ∃ c s', s = c :: s' ∧ p c = true := by
  simp only [matchItems] at h
  obtain ⟨j, hj1, hj2, -⟩ := tryDown_some h
  cases s with
  | nil =>
    simp only [List.takeWhile_nil, List.length_nil] at hj2
    omega
  | cons c s' =>
    refine ⟨c, s', rfl, ?_⟩
    cases hp : p c
    · rw [List.takeWhile_cons, if_neg (by rw [hp]; simp)] at hj2
      simp only [List.length_nil] at hj2
      omega
    · rfl

theorem matchItems_plus_nil {p : Char → Bool} {s r : List Char}
    (h : matchItems [⟨p, .plus⟩] s = some r) : r.length + 1 ≤ s.length := by
  simp only [matchItems] at h
  obtain ⟨j, hj1, hj2, hj3⟩ := tryDown_some h
  simp only [matchItems, Option.some_inj] at hj3
  subst hj3
  rw [List.length_drop]
  have := tw_len (p := p) (l := s)
  omega

/-- Any match of the URL pattern starts with `http` followed by a
non-whitespace character, or with `www`, and consumes at least one
character. -/
theorem urlPat_some {s r : List Char} (h : matchAlt urlPat s = some r) :
    ((∃ d t, s = 'h' :: 't' :: 't' :: 'p' :: d :: t ∧ pySp d = false) ∨
      (∃ t, s = 'w' :: 'w' :: 'w' :: t)) ∧ r.length < s.length := by
  obtain ⟨b, hb, hm⟩ := matchAlt_some_branch h
  simp only [urlPat] at hb
  rcases List.mem_cons.mp hb with rfl | hb2
  · obtain ⟨s1, rfl, h1⟩ := matchItems_lit hm
    obtain ⟨s2, rfl, h2⟩ := matchItems_lit h1
    obtain ⟨s3, rfl, h3⟩ := matchItems_lit h2
    obtain ⟨s4, rfl, h4⟩ := matchItems_lit h3
    obtain ⟨d, t, rfl, hd⟩ := matchItems_plusHead h4
    have hlen := matchItems_plus_nil h4
    constructor
    · exact Or.inl ⟨d, t, rfl, by simpa [nonSp] using hd⟩
    · simp only [List.length_cons] at hlen ⊢
      omega
  · rcases List.mem_cons.mp hb2 with rfl | hb3
    · obtain ⟨s1, rfl, h1⟩ := matchItems_lit hm
      obtain ⟨s2, rfl, h2⟩ := matchItems_lit h1
      obtain ⟨s3, rfl, h3⟩ := matchItems_lit h2
      simp only [matchItems] at h3
      obtain ⟨e, s4, rfl, -, hk⟩ := matchOneC_some h3
      have hlen := matchItems_plus_nil hk
      constructor
      · exact Or.inr ⟨e :: s4, rfl⟩
      · simp only [List.length_cons] at hlen ⊢
        omega
    · cases hb3

/-- When the text starts with `http` followed by a non-space, the URL
pattern matches. -/
theorem urlPat_matches_http {d : Char} {t : List Char} (hd : pySp d = false) :
    (matchAlt urlPat ('h' :: 't' :: 't' :: 'p' :: d :: t)).isSome = true := by
  have hb1 : (matchItems [litC 'h', litC 't', litC 't', litC 'p',
      Item.mk nonSp .plus] ('h' :: 't' :: 't' :: 'p' :: d :: t)).isSome = true := by
    simp only [matchItems, litC, matchOneC]
    rw [if_pos (by simp), if_pos (by simp), if_pos (by simp), if_pos (by simp)]
    have hrun : 1 ≤ (List.takeWhile nonSp (d :: t)).length := by
      rw [List.takeWhile_cons, if_pos (by simp [nonSp, hd])]
      simp
    exact tryDown_isSome (le_refl 1) hrun (by simp [matchItems])
  rcases Option.isSome_iff_exists.mp hb1 with ⟨r, hr⟩
  simp only [matchAlt, urlPat, hr, Option.some_orElse, Option.isSome_some]

/-- The central invariant: the output of the URL substitution never
contains `http` immediately followed by a non-space character. -/
theorem url_no_http :
    ∀ (fuel : Nat) (s : List Char), s.length ≤ fuel → ∀ d, pySp d = false →
      ¬ (['h', 't', 't', 'p', d] <:+: subAllF urlPat [' '] fuel s) := by
  intro fuel
  induction fuel with
  | zero =>
    intro s hs d hd hfac
    cases s with
    | nil => cases fac_nil hfac
    | cons a rest => simp at hs
  | succ fu ih =>
    intro s hs d hd hfac
    cases s with
    | nil =>
      rw [subAllF_nil] at hfac
      cases fac_nil hfac
    | cons a rest =>
      simp only [subAllF] at hfac
      revert hfac
      split
      · rename_i r hm
        have hprog := (urlPat_some hm).2
        rw [if_pos (by simp only [List.length_cons] at hprog ⊢; omega)]
        intro hfac
        rcases facConsCases hfac with hlead | hfac2
        · obtain ⟨hca, -⟩ := leadConsCases hlead
          cases hca
        · have hrfu : r.length ≤ fu := by
            simp only [List.length_cons] at hs hprog
            omega
          exact ih r hrfu d hd hfac2
      · rename_i hm
        intro hfac
        rcases facConsCases hfac with hlead | hfac2
        · obtain ⟨hca, hp2⟩ := leadConsCases hlead
          subst hca
          have hp3 := subAllF_lead fu rest ['t', 't', 'p', d]
            (by intro c hc
                simp only [List.mem_cons, List.mem_singleton, List.not_mem_nil,
                  or_false] at hc
                rcases hc with rfl | rfl | rfl | rfl
                · rfl
                · rfl
                · rfl
                · exact hd) hp2
          obtain ⟨v, hv⟩ := hp3
          have hms := urlPat_matches_http hd (t := v)
          rw [show 't' :: 't' :: 'p' :: d :: v = rest from by
            simpa using hv] at hms
          rw [hm] at hms
          cases hms
        · have hrfu : rest.length ≤ fu := by
            simp only [List.length_cons] at hs
            omega
          exact ih rest hrfu d hd hfac2

/-! ## `startsWithL` / `hasFactor` agree with prefix / factor -/

theorem startsWithL_iff : ∀ {p l : List Char}, startsWithL p l = true ↔ p <+: l := by
  intro p
  induction p with
  | nil =>
    intro l
    simp only [startsWithL]
    exact ⟨fun _ => List.nil_prefix, fun _ => trivial⟩
  | cons a p ih =>
    intro l
    cases l with
    | nil =>
      simp only [startsWithL]
      constructor
      · intro h
        cases h
      · intro h
        obtain ⟨v, hv⟩ := h
        cases hv
    | cons b l =>
      simp only [startsWithL, Bool.and_eq_true, beq_iff_eq, ih]
      constructor
      · rintro ⟨rfl, v, rfl⟩
        exact ⟨v, rfl⟩
      · intro h
        exact leadConsCases h

theorem hasFactor_iff : ∀ {l p : List Char}, hasFactor p l = true ↔ p <:+: l := by
  intro l
  induction l with
  | nil =>
    intro p
    simp only [hasFactor, startsWithL_iff]
    constructor
    · intro h
      exact facOfLead h
    · intro h
      rw [fac_nil h]
  | cons c rest ih =>
    intro p
    simp only [hasFactor, Bool.or_eq_true, startsWithL_iff, ih]
    constructor
    · rintro (h | h)
      · exact facOfLead h
      · exact facCons c h
    · intro h
      exact facConsCases h

/-! ## Transfer of the isolated-spaces shape through `pyStripL` -/

theorem chain_app {R : Char → Char → Prop} :
    ∀ {u t : List Char}, List.Chain' R (u ++ t) → List.Chain' R t := by
  intro u
  induction u with
  | nil => exact fun h => h
  | cons a u ih =>
    intro t h
    exact ih (List.Chain'.tail h)

theorem chain_sfx {R : Char → Char → Prop} {t l : List Char} (h : t <:+ l)
    (hc : List.Chain' R l) : List.Chain' R t := by
  obtain ⟨u, rfl⟩ := h
  exact chain_app hc

theorem chain_rev {l : List Char}
    (h : List.Chain' (fun a b => ¬(pySp a = true ∧ pySp b = true)) l) :
    List.Chain' (fun a b => ¬(pySp a = true ∧ pySp b = true)) l.reverse := by
  rw [List.chain'_reverse]
  exact h.imp fun _ _ hab hx => hab ⟨hx.2, hx.1⟩

theorem chain_pyStripL {l : List Char}
    (h : List.Chain' (fun a b => ¬(pySp a = true ∧ pySp b = true)) l) :
    List.Chain' (fun a b => ¬(pySp a = true ∧ pySp b = true)) (pyStripL l) := by
  rw [pyStripL]
  exact chain_rev (chain_sfx (List.dropWhile_suffix pySp)
    (chain_rev (chain_sfx (List.dropWhile_suffix pySp) h)))

theorem pyStripL_id {l : List Char} (hh : ∀ c, l.head? = some c → pySp c = false)
    (hl : ∀ c, l.getLast? = some c → pySp c = false) : pyStripL l = l := by
  have h1 : l.dropWhile pySp = l := dw_id hh
  rw [pyStripL, h1]
  have h2 : l.reverse.dropWhile pySp = l.reverse :=
    dw_id fun c hc => hl c (by rwa [List.head?_reverse] at hc)
  rw [h2, List.reverse_reverse]

/-! ## The alphabet of `clean_text` output -/

theorem ws_kept {s : List Char} {c : Char} (hc : c ∈ subAll wsPat spRepl s) :
    c = ' ' ∨ (pySp c = false ∧ c ∈ s) :=
  subAllF_kept (fun a rest ha => by rw [wsPat_match_eq ha]; rfl)
    wsPat_progress s.length s (le_refl _) c hc

theorem special_kept {s : List Char} {c : Char} (hc : c ∈ subAll specialPat spRepl s) :
    c = ' ' ∨ (specialCls c = false ∧ c ∈ s) :=
  subAllF_kept (fun a rest ha => by rw [specialPat_head_match ha]; rfl)
    specialPat_progress s.length s (le_refl _) c hc

/-- Every character of `clean_text` output is a space, a lower-case ASCII
letter, or an ASCII digit. -/
theorem clean_text_chars (l : List Char) :
    ∀ c ∈ clean_text l, c = ' ' ∨ c.isLower = true ∨ c.isDigit = true := by
  intro c hc
  by_cases hl : l.isEmpty
  · rw [clean_text, if_pos hl] at hc
    cases hc
  · rw [clean_text, if_neg hl] at hc
    have hc1 := pyStripL_subset _ hc
    rcases ws_kept hc1 with rfl | ⟨hsp, hc2⟩
    · exact Or.inl rfl
    · rcases special_kept hc2 with rfl | ⟨hscl, -⟩
      · exact Or.inl rfl
      · right
        rw [specialCls, Bool.not_eq_false'] at hscl
        rcases Bool.or_eq_true_iff.mp hscl with h | h
        · rcases Bool.or_eq_true_iff.mp h with h2 | h2
          · exact Or.inl h2
          · exact Or.inr h2
        · rw [h] at hsp
          cases hsp

/-! ## C8 (amended): no `@` survives `clean_text` -/

/-- C8 (amended): for every input, the output of `clean_text` contains no
`'@'` character.  (The `http`/`www` parts of the original claim are false;
see the counterexample.) -/
theorem clean_text_no_at (l : List Char) : (clean_text l).contains '@' = false := by
  cases hc : (clean_text l).contains '@' with
  | false => rfl
  | true =>
    exfalso
    have hm : '@' ∈ clean_text l := by simpa using hc
    rcases clean_text_chars l '@' hm with h | h | h
    · exact absurd h (by decide)
    · exact absurd h (by decide)
    · exact absurd h (by decide)

/-- C8, counterexample: `clean_text` keeps a bare `"http"` or `"www"`
unchanged, so the output can contain those substrings: neither regex branch
fires because `http\S+` and `www.\S+` each require at least one further
character. -/
theorem clean_text_keeps_http_www :
    clean_text "http".data = "http".data ∧ "http".data <:+: clean_text "http".data ∧
    clean_text "www".data = "www".data ∧ "www".data <:+: clean_text "www".data := by
  refine ⟨rfl, ?_, rfl, ?_⟩
  · exact ⟨[], [], by decide⟩
  · exact ⟨[], [], by decide⟩

/-- No `"http"`-followed-by-non-space factor ever survives in `clean_text`
output. -/
theorem clean_text_no_http {l : List Char} {d : Char} (hd : pySp d = false) :
    ¬ (['h', 't', 't', 'p', d] <:+: clean_text l) := by
  intro hfac
  by_cases hl : l.isEmpty
  · rw [clean_text, if_pos hl] at hfac
    cases fac_nil hfac
  · rw [clean_text, if_neg hl] at hfac
    have hsf : ∀ c ∈ ['h', 't', 't', 'p', d], pySp c = false := by
      intro c hcm
      simp only [List.mem_cons, List.mem_singleton, List.not_mem_nil, or_false] at hcm
      rcases hcm with rfl | rfl | rfl | rfl | rfl
      · rfl
      · rfl
      · rfl
      · rfl
      · exact hd
    have hne : (['h', 't', 't', 'p', d] : List Char) ≠ [] := by simp
    have h1 := facTrans hfac pyStripL_fac
    have h2 := subAllF_fac _ _ _ hne hsf h1
    have h3 := subAllF_fac _ _ _ hne hsf h2
    have h4 := subAllF_fac _ _ _ hne hsf h3
    exact url_no_http _ _ (le_refl _) d hd h4

/-! ## The remaining structural properties of `clean_text` output -/

theorem pySp_toNat {c : Char} (h : pySp c = true) :
    c.toNat = 32 ∨ c.toNat = 9 ∨ c.toNat = 10 ∨ c.toNat = 13 ∨
      c.toNat = 11 ∨ c.toNat = 12 := by
  simp only [pySp, Bool.or_eq_true, beq_iff_eq] at h
  rcases h with ((((rfl | rfl) | rfl) | rfl) | rfl) | rfl
  all_goals decide

theorem clean_text_spaces (x : List Char) :
    ∀ c ∈ clean_text x, pySp c = true → c = ' ' := by
  intro c hc hpy
  rcases clean_text_chars x c hc with rfl | h | h
  · rfl
  · exfalso
    rw [char_isLower_iff] at h
    rcases pySp_toNat hpy with h2 | h2 | h2 | h2 | h2 | h2 <;> omega
  · exfalso
    rw [char_isDigit_iff] at h
    rcases pySp_toNat hpy with h2 | h2 | h2 | h2 | h2 | h2 <;> omega

theorem subAll_ws_chain (s : List Char) :
    List.Chain' (fun a b => ¬(pySp a = true ∧ pySp b = true)) (subAll wsPat spRepl s) :=
  subAllF_ws_chain s.length s (le_refl _)

theorem subAll_ws_id {s : List Char}
    (h1 : List.Chain' (fun a b => ¬(pySp a = true ∧ pySp b = true)) s)
    (h2 : ∀ c ∈ s, pySp c = true → c = ' ')
    (h3 : ∀ c, s.getLast? = some c → pySp c = false) :
    subAll wsPat spRepl s = s :=
  subAllF_ws_id s.length s (le_refl _) h1 h2 h3

theorem clean_text_chain (x : List Char) :
    List.Chain' (fun a b => ¬(pySp a = true ∧ pySp b = true)) (clean_text x) := by
  rw [clean_text]
  by_cases hx : x.isEmpty
  · rw [if_pos hx]
    exact List.chain'_nil
  · rw [if_neg hx]
    exact chain_pyStripL (subAll_ws_chain _)

theorem clean_text_head_nonspace {x : List Char} {c : Char}
    (h : (clean_text x).head? = some c) : pySp c = false := by
  by_cases hx : x.isEmpty
  · rw [clean_text, if_pos hx] at h
    cases h
  · rw [clean_text, if_neg hx] at h
    exact pyStripL_head h

theorem clean_text_getLast_nonspace {x : List Char} {c : Char}
    (h : (clean_text x).getLast? = some c) : pySp c = false := by
  by_cases hx : x.isEmpty
  · rw [clean_text, if_pos hx] at h
    cases h
  · rw [clean_text, if_neg hx] at h
    exact pyStripL_getLast h

theorem map_eq_self_of {f : Char → Char} :
    ∀ {l : List Char}, (∀ c ∈ l, f c = c) → l.map f = l := by
  intro l
  induction l with
  | nil => intro _; rfl
  | cons a l ih =>
    intro h
    rw [List.map_cons, h a (List.mem_cons_self a l),
      ih fun c hc => h c (List.mem_cons_of_mem a hc)]

/-! ## `clean_text` fixes every list that looks like its own output -/

theorem clean_text_fixed {y : List Char}
    (hchars : ∀ c ∈ y, c = ' ' ∨ c.isLower = true ∨ c.isDigit = true)
    (hnd : ∀ c ∈ y, c.isDigit = false)
    (hnw : ¬ (['w', 'w', 'w'] <:+: y))
    (hnh : ∀ d, pySp d = false → ¬ (['h', 't', 't', 'p', d] <:+: y))
    (hchain : List.Chain' (fun a b => ¬(pySp a = true ∧ pySp b = true)) y)
    (hsp : ∀ c ∈ y, pySp c = true → c = ' ')
    (hhead : ∀ c, y.head? = some c → pySp c = false)
    (hlast : ∀ c, y.getLast? = some c → pySp c = false) :
    clean_text y = y := by
  by_cases hye : y = []
  · subst hye
    rfl
  · have hye2 : ¬ y.isEmpty = true := by
      cases y with
      | nil => exact absurd rfl hye
      | cons a l => simp
    rw [clean_text, if_neg hye2]
    have hmap : y.map Char.toLower = y := by
      apply map_eq_self_of
      intro c hc
      rcases hchars c hc with rfl | h | h
      · exact char_toLower_eq_self (by decide)
      · exact char_toLower_eq_self (by rw [char_isLower_iff] at h; omega)
      · exact char_toLower_eq_self (by rw [char_isDigit_iff] at h; omega)
    rw [hmap]
    have hstep1 : subAll emailPat spRepl y = y := by
      apply subAll_id
      intro t ht
      apply matchAlt_eq_none
      · intro b hb
        rw [emailPat, List.mem_singleton] at hb
        subst hb
        exact List.mem_cons_of_mem _ (List.mem_cons_self _ _)
      · intro c hct
        have hcy : c ∈ y := ht.subset hct
        cases hbe : c == '@' with
        | false => rfl
        | true =>
          exact absurd (hchars c hcy) (by rw [beq_iff_eq.mp hbe]; decide)
    rw [hstep1]
    have hstep2 : subAll urlPat spRepl y = y := by
      apply subAll_id
      intro t ht
      cases hma : matchAlt urlPat t with
      | none => rfl
      | some r =>
        exfalso
        rcases (urlPat_some hma).1 with ⟨d, t2, rfl, hd⟩ | ⟨t2, rfl⟩
        · exact hnh d hd (facTrans (facOfLead ⟨t2, rfl⟩) (facOfSfx ht))
        · exact hnw (facTrans (facOfLead ⟨t2, rfl⟩) (facOfSfx ht))
    rw [hstep2]
    have hstep3 : subAll phonePat spRepl y = y := by
      apply subAll_id
      intro t ht
      apply matchAlt_eq_none
      · intro b hb
        rw [phonePat, List.mem_singleton] at hb
        subst hb
        exact List.mem_cons_of_mem _ (List.mem_cons_self _ _)
      · intro c hct
        exact hnd c (ht.subset hct)
    rw [hstep3]
    have hstep4 : subAll specialPat spRepl y = y := by
      apply subAll_id
      intro t ht
      apply matchAlt_eq_none
      · intro b hb
        rw [specialPat, List.mem_singleton] at hb
        subst hb
        exact List.mem_cons_self _ _
      · intro c hct
        have hcy : c ∈ y := ht.subset hct
        rcases hchars c hcy with rfl | h | h
        · decide
        · simp [specialCls, h]
        · simp [specialCls, h]
    rw [hstep4]
    rw [subAll_ws_id hchain hsp hlast]
    exact pyStripL_id hhead hlast

/-- C2, counterexample to idempotence as claimed: cleaning
`"1.2.3.4.5.6.7.8.9"` yields `"1 2 3 4 5 6 7 8 9"`, but cleaning that output
again yields `""`, because the phone-number regex `\+?\d[\d\s\-]{7,}\d` now
matches the digits-and-spaces string that the special-character removal
created.  So `clean_text` is not idempotent. -/
theorem clean_text_not_idempotent :
    cleanTextStr "1.2.3.4.5.6.7.8.9" = "1 2 3 4 5 6 7 8 9" ∧
    cleanTextStr (cleanTextStr "1.2.3.4.5.6.7.8.9") = "" ∧
    cleanTextStr (cleanTextStr "1.2.3.4.5.6.7.8.9") ≠ cleanTextStr "1.2.3.4.5.6.7.8.9" := by
  refine ⟨rfl, rfl, ?_⟩
  intro h
  rw [show cleanTextStr (cleanTextStr "1.2.3.4.5.6.7.8.9") = "" from rfl] at h
  rw [show cleanTextStr "1.2.3.4.5.6.7.8.9" = "1 2 3 4 5 6 7 8 9" from rfl] at h
  exact absurd (congrArg String.data h) (by decide)

/-- C2 (amended): `clean_text` is idempotent on every input whose cleaned
form contains no digit and no occurrence of `"www"`.  (Unrestricted
idempotence is false: the phone regex can re-fire on digits that the first
pass separated by spaces, and the unescaped-dot `www.` regex can re-fire on
a `www` the first pass isolated; see the counterexample.) -/
theorem clean_text_idem_restricted (x : List Char)
    (h1 : ∀ c ∈ clean_text x, c.isDigit = false)
    (h2 : hasFactor ['w', 'w', 'w'] (clean_text x) = false) :
    clean_text (clean_text x) = clean_text x := by
  refine clean_text_fixed (clean_text_chars x) h1 ?_
    (fun d hd => clean_text_no_http hd) (clean_text_chain x) (clean_text_spaces x)
    (fun c h => clean_text_head_nonspace h) (fun c h => clean_text_getLast_nonspace h)
  intro hf
  rw [hasFactor_iff.mpr hf] at h2
  cases h2

/-- Witness for C2 (amended) at the concrete input `"Hello, World!"`. -/
theorem clean_text_idem_restricted_witness :
    (∀ c ∈ clean_text "Hello, World!".data, c.isDigit = false) ∧
    hasFactor ['w', 'w', 'w'] (clean_text "Hello, World!".data) = false ∧
    clean_text (clean_text "Hello, World!".data) = clean_text "Hello, World!".data :=
  ⟨by decide, by decide,
    clean_text_idem_restricted "Hello, World!".data (by decide) (by decide)⟩

end SkeeGap

